import Mathlib

/-!
Verification of the Huffman coder in `src/main.cpp` (haqu/huffman).

Shallow embedding conventions:
* A byte/char is modeled as `Nat`; an input text is a `List Nat`.
* A bit is a `Bool`: the source's character `'0'` is `false`, `'1'` is `true`.
* The source stores, for each char, the probability `count/total` as a `float`
  and only ever compares and adds these values.  Since `total` is one fixed
  positive number per run, comparisons and sums of probabilities are ordered
  exactly like comparisons and sums of the integer counts, so weights are
  modeled as exact occurrence counts (`Nat`).
* `std::map` (used for `freqs` and `codes`) is modeled as an association list
  kept in strictly ascending key order, which is how the source iterates it.
* `vector::operator[]` out of range (reading `tops[0]` of an empty vector in
  `EncHuffman`) has no defined result; the embedding returns `none` there.
* Loops become fuel-based structural recursion with provably sufficient fuel,
  so every definition is executable.
-/

/-- `struct pnode`: a char together with its weight (source: probability). -/
structure pnode where
  ch : Nat
  p : Nat
deriving DecidableEq

/-- `struct treenode`: a leaf holds a char and weight; an internal node holds
a weight, the two edge labels `lcode`/`rcode` and two children.  The source
uses one struct with possibly-NULL children; internal nodes always get both
children, leaves none, so leaf/node is an exact split. -/
inductive treenode where
  | leaf (ch : Nat) (p : Nat)
  | node (p : Nat) (lcode rcode : Bool) (left right : treenode)
deriving DecidableEq

/-- The weight field `p` of a node. -/
def treenode.p : treenode → Nat
  | .leaf _ p => p
  | .node p _ _ _ _ => p

/-- Key insertion of `std::map` with unit values: keys strictly ascending. -/
def insertKey (c : Nat) : List Nat → List Nat
  | [] => [c]
  | k :: ks =>
    if c < k then c :: k :: ks
    else if c = k then k :: ks
    else k :: insertKey c ks

/-- The key list of the `freqs` map built by the counting loop in `Encode`
(`freqs[ch]++` over the input), in ascending order. -/
def mapKeys (input : List Nat) : List Nat :=
  input.foldl (fun ks c => insertKey c ks) []

/-- `freqs[c]` after the counting loop: the number of occurrences of `c`. -/
def freqOf (input : List Nat) (c : Nat) : Nat := input.count c

/-- One insertion step of sorting `ptable` by decreasing weight, matching the
`qsort` call with comparator `pnode_compare` (decreasing in `p`; the order of
equal-weight entries is unspecified in C, the embedding keeps it stable). -/
def insertDesc (n : pnode) : List pnode → List pnode
  | [] => [n]
  | m :: ms => if m.p < n.p then n :: m :: ms else m :: insertDesc n ms

/-- Sorting a pnode list by decreasing weight (stable on equal weights; the
source's `qsort` leaves the order of equal weights unspecified). -/
def sortDesc (l : List pnode) : List pnode := l.foldl (fun acc n => insertDesc n acc) []

/-- The decreasing `ptable` built in `Encode` from the frequency map. -/
def ptable (input : List Nat) : List pnode :=
  sortDesc ((mapKeys input).map (fun c => { ch := c, p := freqOf input c }))

/-- The merge step of `EncHuffman` that allocates the new internal node `n`:
`n->left` is `tops[numtop-2]`, `n->right` is `tops[numtop-1]`, the weight is
the sum, and the labels are `lcode='0'/rcode='1'` when `left->p < right->p`
and `lcode='1'/rcode='0'` otherwise. -/
def mkNode (l r : treenode) : treenode :=
  if l.p < r.p then .node (l.p + r.p) false true l r
  else .node (l.p + r.p) true false l r

/-- The re-insertion scan of `EncHuffman`: insert `n` immediately before the
first element whose weight is strictly smaller, else push it to the back. -/
def reinsert (n : treenode) : List treenode → List treenode
  | [] => [n]
  | t :: ts => if t.p < n.p then n :: t :: ts else t :: reinsert n ts

/-- One iteration of the `while (numtop > 1)` loop of `EncHuffman`: combine
the last two vector entries into a new node and re-insert it. -/
def hstep : List treenode → List treenode
  | [] => []
  | [t] => [t]
  | a :: b :: rest =>
    let tops := a :: b :: rest
    reinsert (mkNode (tops.dropLast.getLastD a) (tops.getLastD a))
      tops.dropLast.dropLast

/-- The merge loop of `EncHuffman`, with explicit fuel (the loop runs at most
`numtop - 1` times, so `tops.length` is always enough fuel). -/
def huffLoopF : Nat → List treenode → List treenode
  | 0, tops => tops
  | fuel + 1, tops => if tops.length ≤ 1 then tops else huffLoopF fuel (hstep tops)

/-- The merge loop of `EncHuffman` run to completion. -/
def huffLoop (tops : List treenode) : List treenode := huffLoopF tops.length tops

/-- The initial `tops` vector of `EncHuffman`: one leaf per `ptable` entry. -/
def initTops (input : List Nat) : List treenode :=
  (ptable input).map (fun n => .leaf n.ch n.p)

/-- `codes[c] = w` on the `std::map` of codewords: sorted-key insertion. -/
def mapInsert (m : List (Nat × List Bool)) (c : Nat) (w : List Bool) :
    List (Nat × List Bool) :=
  match m with
  | [] => [(c, w)]
  | (k, v) :: ms =>
    if c < k then (c, w) :: (k, v) :: ms
    else if c = k then (c, w) :: ms
    else (k, v) :: mapInsert ms c w

/-- `GenerateCode`, with the static `sequence` string and the `codes` map made
into explicit state `(sequence, codes)`.  A leaf records `codes[ch] = sequence`;
every call trims the last char of `sequence` before returning (`substr(0,l-1)`
when the length exceeds one, the empty string otherwise, which is exactly
`List.dropLast`). -/
def genCode : treenode → List Bool × List (Nat × List Bool) →
    List Bool × List (Nat × List Bool)
  | .leaf c _, st => (st.1.dropLast, mapInsert st.2 c st.1)
  | .node _ lc rc l r, st =>
    let s1 := genCode l (st.1 ++ [lc], st.2)
    let s2 := genCode r (s1.1 ++ [rc], s1.2)
    (s2.1.dropLast, s2.2)

/-- The whole table-building pipeline of `Encode`/`EncHuffman`: count, sort,
merge to a single root (`tops[0]`, `none` when the vector is empty, which is
undefined behavior in the source), then `GenerateCode` starting from the empty
`sequence` and an empty `codes` map. -/
def BuildCode (input : List Nat) : Option (List (Nat × List Bool)) :=
  (huffLoop (initTops input)).head?.map (fun root => (genCode root ([], [])).2)

/-- Lookup in the `codes` map (ascending keys, linear walk). -/
def mapFind? (m : List (Nat × List Bool)) (c : Nat) : Option (List Bool) :=
  match m with
  | [] => none
  | (k, v) :: ms => if c = k then some v else mapFind? ms c

/-- `codes[ch]` as read by the output loop of `Encode`: `std::map::operator[]`
silently yields the default-constructed empty string when `ch` is absent. -/
def encodeSym (m : List (Nat × List Bool)) (c : Nat) : List Bool :=
  (mapFind? m c).getD []

/-- The encoded-text output loop of `Encode`: for each input char, in order,
append `codes[ch]`. -/
def Encode (m : List (Nat × List Bool)) (input : List Nat) : List Bool :=
  (input.map (encodeSym m)).flatten

/-- The inner `for` scan of `Decode` over the `codes` map for one grown
accumulator: on an exact codeword match emit that char and reset the
accumulator (the scan continues, but the reset accumulator can only re-match
an empty codeword).  State: (accumulator, output emitted so far). -/
def scanStep (m : List (Nat × List Bool)) (accum : List Bool) :
    List Bool × List Nat :=
  m.foldl (fun st e => if e.2 = st.1 then ([], st.2 ++ [e.1]) else st) (accum, [])

/-- The outer `while` loop of `Decode`: append each incoming bit to the
accumulator and run the map scan.  Whatever is left in the accumulator when
the input ends is silently dropped. -/
def decodeLoop (m : List (Nat × List Bool)) : List Bool → List Bool → List Nat
  | [], _ => []
  | bit :: bits, accum =>
    let st := scanStep m (accum ++ [bit])
    st.2 ++ decodeLoop m bits st.1

/-- `Decode` on an already-loaded codes map and the encoded bit text. -/
def Decode (m : List (Nat × List Bool)) (bits : List Bool) : List Nat :=
  decodeLoop m bits []

/-- The (char, weight, root-to-leaf path) triples of a tree, in traversal
order of `GenerateCode`. -/
def paths : treenode → List ((Nat × Nat) × List Bool)
  | .leaf c p => [((c, p), [])]
  | .node _ lc rc l r =>
    (paths l).map (fun e => (e.1, lc :: e.2)) ++
      (paths r).map (fun e => (e.1, rc :: e.2))

/-- The chars at the leaves of a tree, in traversal order. -/
def chars (t : treenode) : List Nat := (paths t).map (fun e => e.1.1)

/-- `pfx u v`: the bit string `u` is an initial segment of `v`. -/
def pfx (u v : List Bool) : Prop := v.take u.length = u

instance (u v : List Bool) : Decidable (pfx u v) := by
  unfold pfx; infer_instance

/-! ## Generic list helpers -/

theorem exists_snoc2 {α : Type} (l : List α) (h : 2 ≤ l.length) :
    ∃ ys a b, l = ys ++ [a, b] := by
  rcases l.eq_nil_or_concat with rfl | ⟨l1, b, rfl⟩
  · simp at h
  rcases l1.eq_nil_or_concat with rfl | ⟨l2, a, rfl⟩
  · simp at h
  exact ⟨l2, a, b, by simp⟩

/-! ## The merge loop: basic shape -/

theorem reinsert_length (n : treenode) (l : List treenode) :
    (reinsert n l).length = l.length + 1 := by
  induction l with
  | nil => rfl
  | cons t ts ih => simp only [reinsert]; split <;> simp [ih]

theorem reinsert_perm (n : treenode) (l : List treenode) :
    (reinsert n l).Perm (n :: l) := by
  induction l with
  | nil => exact List.Perm.refl _
  | cons t ts ih =>
    simp only [reinsert]; split
    · exact List.Perm.refl _
    · exact (ih.cons t).trans (List.Perm.swap n t ts)

theorem mem_reinsert (x n : treenode) (l : List treenode) :
    x ∈ reinsert n l ↔ x = n ∨ x ∈ l := by
  rw [(reinsert_perm n l).mem_iff]; simp

theorem hstep_cc (x z : treenode) (rest : List treenode) :
    hstep (x :: z :: rest) =
      reinsert (mkNode ((x :: z :: rest).dropLast.getLastD x)
        ((x :: z :: rest).getLastD x)) (x :: z :: rest).dropLast.dropLast := rfl

theorem hstep_snoc (ys : List treenode) (a b : treenode) :
    hstep (ys ++ [a, b]) = reinsert (mkNode a b) ys := by
  rcases ys with _ | ⟨y, t⟩
  · rfl
  rcases t with _ | ⟨z, t'⟩
  · rfl
  have e : y :: z :: (t' ++ [a, b]) = ((y :: z :: t') ++ [a]) ++ [b] := by simp
  rw [show (y :: z :: t') ++ [a, b] = y :: z :: (t' ++ [a, b]) by simp, hstep_cc, e,
    List.dropLast_concat, List.getLastD_concat, List.getLastD_concat, List.dropLast_concat]

theorem hstep_length (l : List treenode) (h : 2 ≤ l.length) :
    (hstep l).length + 1 = l.length := by
  obtain ⟨ys, a, b, rfl⟩ := exists_snoc2 l h
  rw [hstep_snoc, reinsert_length]
  simp

theorem huffLoopF_fix (f : Nat) (tops : List treenode) (h : tops.length ≤ 1) :
    huffLoopF f tops = tops := by
  cases f <;> simp [huffLoopF, h]

theorem huffLoop_fix (tops : List treenode) (h : tops.length ≤ 1) :
    huffLoop tops = tops := huffLoopF_fix _ _ h

theorem huffLoopF_fuel (f : Nat) : ∀ (g : Nat) (tops : List treenode),
    tops.length ≤ f + 1 → tops.length ≤ g + 1 → huffLoopF f tops = huffLoopF g tops := by
  induction f with
  | zero => intro g tops hf _; rw [huffLoopF, huffLoopF_fix g tops hf]
  | succ f ih =>
    intro g tops hf hg
    by_cases h1 : tops.length ≤ 1
    · rw [huffLoopF_fix _ _ h1, huffLoopF_fix _ _ h1]
    cases g with
    | zero => omega
    | succ g =>
      simp only [huffLoopF, if_neg h1]
      have hl : (hstep tops).length + 1 = tops.length := hstep_length _ (by omega)
      exact ih g (hstep tops) (by omega) (by omega)

theorem huffLoop_step (tops : List treenode) (h : 2 ≤ tops.length) :
    huffLoop tops = huffLoop (hstep tops) := by
  have hl : (hstep tops).length + 1 = tops.length := hstep_length _ h
  have h1 : ¬ tops.length ≤ 1 := by omega
  unfold huffLoop
  conv_lhs => rw [← hl]
  simp only [huffLoopF]
  rw [if_neg h1]

theorem huffLoopF_inv (P : List treenode → Prop)
    (step : ∀ tops, 2 ≤ tops.length → P tops → P (hstep tops)) :
    ∀ (f : Nat) (tops : List treenode), P tops → P (huffLoopF f tops) := by
  intro f
  induction f with
  | zero => intro tops h; exact h
  | succ f ih =>
    intro tops h
    by_cases h1 : tops.length ≤ 1
    · simpa [huffLoopF, h1] using h
    · simpa [huffLoopF, h1] using ih (hstep tops) (step tops (by omega) h)

theorem huffLoop_inv (P : List treenode → Prop)
    (step : ∀ tops, 2 ≤ tops.length → P tops → P (hstep tops))
    (tops : List treenode) (h : P tops) : P (huffLoop tops) :=
  huffLoopF_inv P step _ tops h

theorem huffLoopF_length_le (f : Nat) : ∀ (tops : List treenode),
    tops.length ≤ f + 1 → (huffLoopF f tops).length ≤ 1 := by
  induction f with
  | zero => intro tops h; simpa [huffLoopF] using h
  | succ f ih =>
    intro tops h
    by_cases h1 : tops.length ≤ 1
    · simpa [huffLoopF_fix _ _ h1] using h1
    · simp only [huffLoopF, if_neg h1]
      have hl : (hstep tops).length + 1 = tops.length := hstep_length _ (by omega)
      exact ih (hstep tops) (by omega)

theorem huffLoop_singleton (tops : List treenode) (h : 1 ≤ tops.length) :
    ∃ root, huffLoop tops = [root] := by
  have hle : (huffLoop tops).length ≤ 1 := huffLoopF_length_le _ _ (by omega)
  have hge : 1 ≤ (huffLoop tops).length := by
    refine huffLoop_inv (fun l => 1 ≤ l.length) ?_ tops h
    intro l hl h1
    have := hstep_length l hl
    omega
  have : (huffLoop tops).length = 1 := by omega
  exact List.length_eq_one.mp this

/-! ## Sortedness of the working collection -/

/-- The working collection is ordered by descending weight. -/
def sortedDesc (l : List treenode) : Prop :=
  l.Pairwise (fun s t => t.p ≤ s.p)

instance (l : List treenode) : Decidable (sortedDesc l) := by
  unfold sortedDesc; infer_instance

theorem reinsert_sorted (n : treenode) (l : List treenode) (h : sortedDesc l) :
    sortedDesc (reinsert n l) := by
  induction l with
  | nil => simp [sortedDesc, reinsert]
  | cons t ts ih =>
    rcases (List.pairwise_cons.mp h) with ⟨ht, hts⟩
    simp only [reinsert]; split
    · refine List.pairwise_cons.mpr ⟨?_, h⟩
      intro x hx
      rcases List.mem_cons.mp hx with rfl | hx
      · omega
      · have := ht x hx; omega
    · refine List.pairwise_cons.mpr ⟨?_, ih hts⟩
      intro x hx
      rcases (mem_reinsert x n ts).mp hx with rfl | hx
      · omega
      · exact ht x hx

/-! ## pfx basics -/

theorem pfx_nil (v : List Bool) : pfx [] v := rfl

theorem pfx_refl (v : List Bool) : pfx v v := by simp [pfx]

theorem pfx_cons (b b' : Bool) (u v : List Bool) :
    pfx (b :: u) (b' :: v) ↔ b' = b ∧ pfx u v := by
  simp [pfx, List.take_cons]

theorem pfx_append (u w : List Bool) : pfx u (u ++ w) := by
  simp [pfx, List.take_append]

theorem pfx_length_le (u v : List Bool) (h : pfx u v) : u.length ≤ v.length := by
  by_contra hlt
  have := congrArg List.length h
  simp [List.length_take] at this
  omega

theorem pfx_exists (u v : List Bool) (h : pfx u v) : ∃ w, v = u ++ w := by
  refine ⟨v.drop u.length, ?_⟩
  conv_lhs => rw [← List.take_append_drop u.length v]
  rw [h]

theorem pfx_take (u : List Bool) (i : Nat) : pfx (u.take i) u := by
  unfold pfx
  rw [List.length_take]
  rcases le_or_lt i u.length with hle | hlt
  · rw [min_eq_left hle]
  · rw [min_eq_right (by omega), List.take_length, List.take_of_length_le (by omega)]

theorem pfx_trans (u v w : List Bool) (h1 : pfx u v) (h2 : pfx v w) : pfx u w := by
  obtain ⟨x, rfl⟩ := pfx_exists u v h1
  obtain ⟨y, rfl⟩ := pfx_exists _ w h2
  rw [List.append_assoc]
  exact pfx_append u (x ++ y)

theorem pfx_of_take_pfx (w : List Bool) (i : Nat) (v : List Bool) (h : pfx w v) :
    pfx (v.take i) w ∨ pfx w (v.take i) := by
  rcases le_or_lt i w.length with hle | hlt
  · left
    obtain ⟨x, rfl⟩ := pfx_exists w v h
    rw [List.take_append_of_le_length hle]
    exact pfx_take w i
  · right
    obtain ⟨x, rfl⟩ := pfx_exists w v h
    rw [List.take_append_eq_append_take, List.take_of_length_le (by omega)]
    exact pfx_append _ _

/-! ## GenerateCode characterization -/

theorem genCode_fst (t : treenode) : ∀ st, (genCode t st).1 = st.1.dropLast := by
  induction t with
  | leaf c p => intro st; rfl
  | node p lc rc l r ihl ihr =>
    intro st
    simp only [genCode, ihl, ihr, List.dropLast_concat]

/-- Accumulating a batch of `codes[ch] = w` insertions. -/
def insertAll (m : List (Nat × List Bool)) (es : List ((Nat × Nat) × List Bool)) :
    List (Nat × List Bool) :=
  es.foldl (fun acc e => mapInsert acc e.1.1 e.2) m

theorem genCode_snd (t : treenode) : ∀ st, (genCode t st).2 =
    insertAll st.2 ((paths t).map (fun e => (e.1, st.1 ++ e.2))) := by
  induction t with
  | leaf c p => intro st; simp [genCode, paths, insertAll]
  | node p lc rc l r ihl ihr =>
    intro st
    have e1 : ∀ (s : List Bool) (c : Bool) (tt : treenode),
        (paths tt).map (fun e => (e.1, (s ++ [c]) ++ e.2)) =
          ((paths tt).map (fun e => (e.1, c :: e.2))).map (fun e => (e.1, s ++ e.2)) := by
      intro s c tt
      rw [List.map_map]
      apply List.map_congr_left
      intro e _
      simp
    simp only [genCode, ihl, ihr, genCode_fst, List.dropLast_concat]
    rw [e1 st.1 lc l, e1 st.1 rc r]
    simp only [paths, List.map_append, insertAll, List.foldl_append]

theorem BuildCode_root (input : List Nat) (root : treenode)
    (h : huffLoop (initTops input) = [root]) :
    BuildCode input = some (insertAll [] (paths root)) := by
  unfold BuildCode
  rw [h]
  simp [genCode_snd]

/-! ## Association list lemmas for the codes map -/

theorem mapInsert_perm (m : List (Nat × List Bool)) (c : Nat) (w : List Bool)
    (h : c ∉ m.map Prod.fst) : (mapInsert m c w).Perm ((c, w) :: m) := by
  induction m with
  | nil => exact List.Perm.refl _
  | cons e ms ih =>
    obtain ⟨k, v⟩ := e
    simp only [List.map_cons, List.mem_cons] at h
    push_neg at h
    simp only [mapInsert]
    by_cases h1 : c < k
    · rw [if_pos h1]
    · rw [if_neg h1, if_neg h.1]
      exact ((ih h.2).cons (k, v)).trans (List.Perm.swap (c, w) (k, v) ms)

theorem insertAll_perm : ∀ (es : List ((Nat × Nat) × List Bool)) (m : List (Nat × List Bool)),
    (es.map (fun e => e.1.1) ++ m.map Prod.fst).Nodup →
    (insertAll m es).Perm (m ++ es.map (fun e => (e.1.1, e.2))) := by
  intro es
  induction es with
  | nil => intro m _; simp [insertAll]
  | cons e es ih =>
    intro m hnd
    have hnd0 : (e.1.1 :: (es.map (fun e => e.1.1) ++ m.map Prod.fst)).Nodup := by
      simpa using hnd
    have hmem : e.1.1 ∉ m.map Prod.fst := fun hc =>
      (List.nodup_cons.mp hnd0).1 (List.mem_append.mpr (Or.inr hc))
    have hkeys : ((mapInsert m e.1.1 e.2).map Prod.fst).Perm (e.1.1 :: m.map Prod.fst) :=
      (mapInsert_perm m e.1.1 e.2 hmem).map Prod.fst
    have hperm2 : (es.map (fun e => e.1.1) ++ (mapInsert m e.1.1 e.2).map Prod.fst).Perm
        (e.1.1 :: (es.map (fun e => e.1.1) ++ m.map Prod.fst)) :=
      (hkeys.append_left _).trans List.perm_middle
    have hnd' : (es.map (fun e => e.1.1) ++ (mapInsert m e.1.1 e.2).map Prod.fst).Nodup :=
      hperm2.nodup_iff.mpr hnd0
    have step : insertAll m (e :: es) = insertAll (mapInsert m e.1.1 e.2) es := rfl
    rw [step]
    refine (ih _ hnd').trans ?_
    refine ((mapInsert_perm m e.1.1 e.2 hmem).append_right _).trans ?_
    exact List.perm_middle.symm

theorem mapFind?_mem (m : List (Nat × List Bool)) (c : Nat) (w : List Bool)
    (h : mapFind? m c = some w) : (c, w) ∈ m := by
  induction m with
  | nil => simp [mapFind?] at h
  | cons e ms ih =>
    obtain ⟨k, v⟩ := e
    simp only [mapFind?] at h
    split at h
    · rename_i hc
      subst hc
      simp at h
      simp [h]
    · simp [ih h]

theorem mem_mapFind? (m : List (Nat × List Bool)) (c : Nat) (w : List Bool)
    (hnd : (m.map Prod.fst).Nodup) (h : (c, w) ∈ m) : mapFind? m c = some w := by
  induction m with
  | nil => simp at h
  | cons e ms ih =>
    obtain ⟨k, v⟩ := e
    simp only [List.map_cons, List.nodup_cons] at hnd
    rcases List.mem_cons.mp h with he | hm
    · rw [show (k, v) = (c, w) from he.symm]
      simp [mapFind?]
    · have hck : c ≠ k := by
        rintro rfl
        exact hnd.1 (List.mem_map.mpr ⟨(c, w), hm, rfl⟩)
      simp only [mapFind?, if_neg hck]
      exact ih hnd.2 hm

theorem mapFind?_none (m : List (Nat × List Bool)) (c : Nat) :
    mapFind? m c = none ↔ c ∉ m.map Prod.fst := by
  induction m with
  | nil => simp [mapFind?]
  | cons e ms ih =>
    obtain ⟨k, v⟩ := e
    simp only [mapFind?, List.map_cons, List.mem_cons]
    split
    · rename_i hc; subst hc; simp
    · rename_i hc; simpa [hc] using ih

/-! ## The frequency map -/

theorem mem_insertKey (x c : Nat) (ks : List Nat) :
    x ∈ insertKey c ks ↔ x = c ∨ x ∈ ks := by
  induction ks with
  | nil => simp [insertKey]
  | cons k ks ih =>
    simp only [insertKey]
    split
    · simp [List.mem_cons]
    · split
      · rename_i h1 h2
        subst h2
        simp only [List.mem_cons]
        tauto
      · simp only [List.mem_cons, ih]
        tauto

theorem insertKey_sorted (c : Nat) (ks : List Nat) (h : ks.Pairwise (· < ·)) :
    (insertKey c ks).Pairwise (· < ·) := by
  induction ks with
  | nil => simp [insertKey]
  | cons k ks ih =>
    rcases List.pairwise_cons.mp h with ⟨hk, hks⟩
    simp only [insertKey]
    split
    · rename_i h1
      refine List.pairwise_cons.mpr ⟨?_, h⟩
      intro x hx
      rcases List.mem_cons.mp hx with rfl | hx
      · exact h1
      · exact lt_trans h1 (hk x hx)
    · split
      · exact h
      · rename_i h1 h2
        refine List.pairwise_cons.mpr ⟨?_, ih hks⟩
        intro x hx
        rcases (mem_insertKey x c ks).mp hx with rfl | hx
        · omega
        · exact hk x hx

theorem mapKeys_aux (l : List Nat) : ∀ ks : List Nat,
    (ks.Pairwise (· < ·) → (l.foldl (fun ks c => insertKey c ks) ks).Pairwise (· < ·)) ∧
    (∀ x, x ∈ l.foldl (fun ks c => insertKey c ks) ks ↔ x ∈ l ∨ x ∈ ks) := by
  induction l with
  | nil => intro ks; exact ⟨id, by simp⟩
  | cons c l ih =>
    intro ks
    constructor
    · intro hs
      exact (ih (insertKey c ks)).1 (insertKey_sorted c ks hs)
    · intro x
      rw [List.foldl_cons, (ih (insertKey c ks)).2 x, mem_insertKey]
      simp only [List.mem_cons]
      tauto

theorem mapKeys_sorted (input : List Nat) : (mapKeys input).Pairwise (· < ·) :=
  (mapKeys_aux input []).1 List.Pairwise.nil

theorem mapKeys_nodup (input : List Nat) : (mapKeys input).Nodup :=
  (mapKeys_sorted input).imp Nat.ne_of_lt

theorem mem_mapKeys (input : List Nat) (x : Nat) : x ∈ mapKeys input ↔ x ∈ input := by
  rw [mapKeys, (mapKeys_aux input []).2 x]
  simp

/-! ## The sorted probability table -/

theorem insertDesc_perm (n : pnode) (l : List pnode) : (insertDesc n l).Perm (n :: l) := by
  induction l with
  | nil => exact List.Perm.refl _
  | cons m ms ih =>
    simp only [insertDesc]; split
    · exact List.Perm.refl _
    · exact (ih.cons m).trans (List.Perm.swap n m ms)

theorem mem_insertDesc (x n : pnode) (l : List pnode) :
    x ∈ insertDesc n l ↔ x = n ∨ x ∈ l := by
  rw [(insertDesc_perm n l).mem_iff]; simp

theorem insertDesc_sorted (n : pnode) (l : List pnode)
    (h : l.Pairwise (fun a b => b.p ≤ a.p)) :
    (insertDesc n l).Pairwise (fun a b => b.p ≤ a.p) := by
  induction l with
  | nil => simp [insertDesc]
  | cons m ms ih =>
    rcases List.pairwise_cons.mp h with ⟨hm, hms⟩
    simp only [insertDesc]; split
    · refine List.pairwise_cons.mpr ⟨?_, h⟩
      intro x hx
      rcases List.mem_cons.mp hx with rfl | hx
      · omega
      · have := hm x hx; omega
    · refine List.pairwise_cons.mpr ⟨?_, ih hms⟩
      intro x hx
      rcases (mem_insertDesc x n ms).mp hx with rfl | hx
      · omega
      · exact hm x hx

theorem sortDesc_aux (l : List pnode) : ∀ acc : List pnode,
    (l.foldl (fun acc n => insertDesc n acc) acc).Perm (l ++ acc) ∧
    (acc.Pairwise (fun a b => b.p ≤ a.p) →
      (l.foldl (fun acc n => insertDesc n acc) acc).Pairwise (fun a b => b.p ≤ a.p)) := by
  induction l with
  | nil => intro acc; exact ⟨by simp, id⟩
  | cons n l ih =>
    intro acc
    constructor
    · refine ((ih (insertDesc n acc)).1).trans ?_
      refine ((insertDesc_perm n acc).append_left l).trans ?_
      exact List.perm_middle
    · intro hs
      exact (ih (insertDesc n acc)).2 (insertDesc_sorted n acc hs)

theorem sortDesc_perm (l : List pnode) : (sortDesc l).Perm l := by
  refine ((sortDesc_aux l []).1).trans ?_
  simp

theorem sortDesc_sorted (l : List pnode) :
    (sortDesc l).Pairwise (fun a b => b.p ≤ a.p) :=
  (sortDesc_aux l []).2 List.Pairwise.nil

theorem ptable_perm (input : List Nat) :
    (ptable input).Perm
      ((mapKeys input).map (fun c => ({ ch := c, p := freqOf input c } : pnode))) :=
  sortDesc_perm _

/-! ## Leaf chars of trees and forests -/

theorem chars_leaf (c p : Nat) : chars (.leaf c p) = [c] := rfl

theorem chars_node (p : Nat) (lc rc : Bool) (l r : treenode) :
    chars (.node p lc rc l r) = chars l ++ chars r := by
  show ((paths l).map (fun e => (e.1, lc :: e.2)) ++
      (paths r).map (fun e => (e.1, rc :: e.2))).map (fun e => e.1.1) = chars l ++ chars r
  rw [List.map_append, List.map_map, List.map_map]
  rfl

theorem chars_mkNode (l r : treenode) : chars (mkNode l r) = chars l ++ chars r := by
  unfold mkNode
  split <;> exact chars_node _ _ _ _ _

theorem chars_ne_nil (t : treenode) : chars t ≠ [] := by
  induction t with
  | leaf c p => simp [chars_leaf]
  | node p lc rc l r ihl ihr =>
    rw [chars_node]
    intro h
    exact ihl (List.append_eq_nil.mp h).1

/-- Well-formedness produced by the merge loop: the two edge labels of every
internal node differ. -/
def WF : treenode → Prop
  | .leaf _ _ => True
  | .node _ lc rc l r => lc ≠ rc ∧ WF l ∧ WF r

theorem WF_mkNode (l r : treenode) (hl : WF l) (hr : WF r) : WF (mkNode l r) := by
  unfold mkNode
  split
  · exact ⟨by decide, hl, hr⟩
  · exact ⟨by decide, hl, hr⟩

/-- All leaf chars of a working collection, in order. -/
def charsF (tops : List treenode) : List Nat := (tops.map chars).flatten

theorem charsF_hstep (tops : List treenode) (h : 2 ≤ tops.length) :
    (charsF (hstep tops)).Perm (charsF tops) := by
  obtain ⟨ys, a, b, rfl⟩ := exists_snoc2 tops h
  rw [hstep_snoc]
  unfold charsF
  refine (((reinsert_perm (mkNode a b) ys).map chars).flatten).trans ?_
  simp only [List.map_cons, List.map_append, List.flatten_cons, List.flatten_append,
    chars_mkNode, List.flatten_nil, List.append_nil]
  refine (List.perm_append_comm).trans ?_
  simp [List.append_assoc]

theorem WF_hstep (tops : List treenode) (h2 : 2 ≤ tops.length)
    (h : ∀ t ∈ tops, WF t) : ∀ t ∈ hstep tops, WF t := by
  obtain ⟨ys, a, b, rfl⟩ := exists_snoc2 tops h2
  rw [hstep_snoc]
  intro t ht
  rcases (mem_reinsert t _ _).mp ht with rfl | ht
  · exact WF_mkNode a b (h a (by simp)) (h b (by simp))
  · exact h t (by simp [ht])

theorem huffLoop_root (tops : List treenode) (root : treenode)
    (h : huffLoop tops = [root]) :
    (chars root).Perm (charsF tops) ∧ ((∀ t ∈ tops, WF t) → WF root) := by
  have hinv := huffLoop_inv
    (fun l => (charsF l).Perm (charsF tops) ∧ ((∀ t ∈ tops, WF t) → ∀ t ∈ l, WF t))
    (fun l hl ⟨hc, hw⟩ => ⟨(charsF_hstep l hl).trans hc, fun h0 => WF_hstep l hl (hw h0)⟩)
    tops ⟨List.Perm.refl _, fun h0 => h0⟩
  rw [h] at hinv
  refine ⟨?_, fun h0 => hinv.2 h0 root (by simp)⟩
  have : charsF [root] = chars root := by simp [charsF]
  rw [← this]
  exact hinv.1

theorem huffLoop_length_le (tops : List treenode) : (huffLoop tops).length ≤ 1 :=
  huffLoopF_length_le _ _ (by omega)

theorem flatten_singletons {α β : Type} (f : α → β) (l : List α) :
    (l.map (fun x => [f x])).flatten = l.map f := by
  induction l with
  | nil => rfl
  | cons x l ih => simp [ih]

theorem charsF_initTops (input : List Nat) :
    (charsF (initTops input)).Perm (mapKeys input) := by
  unfold charsF initTops
  rw [List.map_map]
  have e : (chars ∘ fun n : pnode => treenode.leaf n.ch n.p) = fun n : pnode => [n.ch] := by
    funext n; rfl
  rw [e, flatten_singletons]
  refine ((ptable_perm input).map pnode.ch).trans ?_
  rw [List.map_map]
  have e2 : (pnode.ch ∘ fun c => ({ ch := c, p := freqOf input c } : pnode)) = id := by
    funext c; rfl
  simp [e2]

/-- Everything `BuildCode input = some t` gives us about the tree and table. -/
theorem BuildCode_some (input : List Nat) (t : List (Nat × List Bool))
    (h : BuildCode input = some t) :
    ∃ root, huffLoop (initTops input) = [root] ∧ WF root ∧
      (chars root).Perm (mapKeys input) ∧
      t.Perm ((paths root).map (fun e => (e.1.1, e.2))) := by
  unfold BuildCode at h
  rcases Option.map_eq_some'.mp h with ⟨root, hhead, hgen⟩
  have hlen := huffLoop_length_le (initTops input)
  have hL : huffLoop (initTops input) = [root] := by
    rcases hE : huffLoop (initTops input) with _ | ⟨r, rs⟩
    · rw [hE] at hhead; simp [List.head?] at hhead
    · rw [hE] at hhead hlen
      simp [List.head?] at hhead
      simp at hlen
      rw [hhead, hlen]
  obtain ⟨hchars, hwf⟩ := huffLoop_root _ _ hL
  have hcharsKeys : (chars root).Perm (mapKeys input) :=
    hchars.trans (charsF_initTops input)
  have hwfroot : WF root := hwf (by
    intro x hx
    unfold initTops at hx
    rcases List.mem_map.mp hx with ⟨n, _, rfl⟩
    trivial)
  refine ⟨root, hL, hwfroot, hcharsKeys, ?_⟩
  have ht : t = insertAll [] (paths root) := by
    rw [← hgen, genCode_snd]
    simp
  rw [ht]
  have hnd : ((paths root).map (fun e => e.1.1) ++
      ([] : List (Nat × List Bool)).map Prod.fst).Nodup := by
    simp only [List.map_nil, List.append_nil]
    have : (paths root).map (fun e => e.1.1) = chars root := rfl
    rw [this]
    exact hcharsKeys.nodup_iff.mpr (mapKeys_nodup input)
  simpa using insertAll_perm (paths root) [] hnd

/-! ## Paths of a well-formed tree -/

theorem paths_node (p : Nat) (lc rc : Bool) (l r : treenode) :
    paths (.node p lc rc l r) =
      (paths l).map (fun e => (e.1, lc :: e.2)) ++
        (paths r).map (fun e => (e.1, rc :: e.2)) := rfl

theorem paths_pairwise (t : treenode) (h : WF t) :
    (paths t).Pairwise (fun e1 e2 => ¬ pfx e1.2 e2.2 ∧ ¬ pfx e2.2 e1.2) := by
  induction t with
  | leaf c p => simp [paths]
  | node p lc rc l r ihl ihr =>
    obtain ⟨hne, hl, hr⟩ := h
    rw [paths_node, List.pairwise_append]
    refine ⟨?_, ?_, ?_⟩
    · rw [List.pairwise_map]
      refine (ihl hl).imp ?_
      intro e1 e2 he
      exact ⟨fun hp => he.1 ((pfx_cons _ _ _ _).mp hp).2,
        fun hp => he.2 ((pfx_cons _ _ _ _).mp hp).2⟩
    · rw [List.pairwise_map]
      refine (ihr hr).imp ?_
      intro e1 e2 he
      exact ⟨fun hp => he.1 ((pfx_cons _ _ _ _).mp hp).2,
        fun hp => he.2 ((pfx_cons _ _ _ _).mp hp).2⟩
    · intro x hx y hy
      rcases List.mem_map.mp hx with ⟨e1, _, rfl⟩
      rcases List.mem_map.mp hy with ⟨e2, _, rfl⟩
      exact ⟨fun hp => hne ((pfx_cons _ _ _ _).mp hp).1.symm,
        fun hp => hne ((pfx_cons _ _ _ _).mp hp).1⟩

theorem paths_node_nonempty (p : Nat) (lc rc : Bool) (l r : treenode) :
    ∀ e ∈ paths (.node p lc rc l r), e.2 ≠ [] := by
  intro e he
  rw [paths_node] at he
  rcases List.mem_append.mp he with h1 | h1 <;>
    rcases List.mem_map.mp h1 with ⟨e1, _, rfl⟩ <;> simp

theorem paths_length_le (t : treenode) :
    ∀ e ∈ paths t, e.2.length + 1 ≤ (chars t).length := by
  induction t with
  | leaf c p => intro e he; simp [paths] at he; simp [he, chars_leaf]
  | node p lc rc l r ihl ihr =>
    intro e he
    rw [chars_node, List.length_append]
    rw [paths_node] at he
    rcases List.mem_append.mp he with h1 | h1 <;>
      rcases List.mem_map.mp h1 with ⟨e1, he1, rfl⟩
    · have h2 := ihl e1 he1
      have h3 : 1 ≤ (chars r).length := List.length_pos.mpr (chars_ne_nil r)
      simp only [List.length_cons]
      omega
    · have h2 := ihr e1 he1
      have h3 : 1 ≤ (chars l).length := List.length_pos.mpr (chars_ne_nil l)
      simp only [List.length_cons]
      omega

/-! ## The produced table is a good code table -/

/-- A good decoding table: no duplicate chars, no empty codeword, and the
codewords of two different entries never extend one another. -/
def GoodT (t : List (Nat × List Bool)) : Prop :=
  (t.map Prod.fst).Nodup ∧ (∀ e ∈ t, e.2 ≠ []) ∧
    ∀ e1 ∈ t, ∀ e2 ∈ t, e1 ≠ e2 → ¬ pfx e1.2 e2.2 ∧ ¬ pfx e2.2 e1.2

theorem table_nodup_keys (input : List Nat) (t : List (Nat × List Bool))
    (h : BuildCode input = some t) : (t.map Prod.fst).Nodup := by
  obtain ⟨root, _, _, hchars, hperm⟩ := BuildCode_some input t h
  have h1 : (t.map Prod.fst).Perm (chars root) := by
    have := hperm.map Prod.fst
    rw [List.map_map] at this
    exact this
  exact h1.nodup_iff.mpr (hchars.nodup_iff.mpr (mapKeys_nodup input))

theorem BuildCode_goodT (input : List Nat) (t : List (Nat × List Bool))
    (h : BuildCode input = some t) (h2 : 2 ≤ (mapKeys input).length) : GoodT t := by
  obtain ⟨root, hL, hwf, hchars, hperm⟩ := BuildCode_some input t h
  have hroot : ∃ p lc rc l r, root = treenode.node p lc rc l r := by
    cases root with
    | leaf c p =>
      have := hchars.length_eq
      rw [chars_leaf] at this
      simp at this
      omega
    | node p lc rc l r => exact ⟨p, lc, rc, l, r, rfl⟩
  obtain ⟨p, lc, rc, l, r, rfl⟩ := hroot
  refine ⟨table_nodup_keys input t h, ?_, ?_⟩
  · intro e he
    have : e ∈ (paths (treenode.node p lc rc l r)).map (fun e => (e.1.1, e.2)) :=
      hperm.subset he
    rcases List.mem_map.mp this with ⟨pe, hpe, rfl⟩
    exact paths_node_nonempty _ _ _ _ _ pe hpe
  · intro e1 he1 e2 he2 hne
    have m1 : e1 ∈ (paths (treenode.node p lc rc l r)).map (fun e => (e.1.1, e.2)) :=
      hperm.subset he1
    have m2 : e2 ∈ (paths (treenode.node p lc rc l r)).map (fun e => (e.1.1, e.2)) :=
      hperm.subset he2
    rcases List.mem_map.mp m1 with ⟨x1, hx1, rfl⟩
    rcases List.mem_map.mp m2 with ⟨x2, hx2, rfl⟩
    have hx12 : x1 ≠ x2 := by
      rintro rfl
      exact hne rfl
    have hsym : Symmetric (fun (e1 e2 : (Nat × Nat) × List Bool) =>
        ¬ pfx e1.2 e2.2 ∧ ¬ pfx e2.2 e1.2) := fun a b hab => ⟨hab.2, hab.1⟩
    exact (paths_pairwise _ hwf).forall hsym hx1 hx2 hx12

theorem table_covers (input : List Nat) (t : List (Nat × List Bool))
    (h : BuildCode input = some t) (s : Nat) (hs : s ∈ input) :
    ∃ w, mapFind? t s = some w ∧ (s, w) ∈ t := by
  obtain ⟨root, hL, hwf, hchars, hperm⟩ := BuildCode_some input t h
  have hsk : s ∈ chars root := hchars.mem_iff.mpr ((mem_mapKeys input s).mpr hs)
  rcases List.mem_map.mp hsk with ⟨pe, hpe, hpe2⟩
  have hmem : (s, pe.2) ∈ t := by
    refine hperm.mem_iff.mpr ?_
    refine List.mem_map.mpr ⟨pe, hpe, ?_⟩
    rw [hpe2]
  exact ⟨pe.2, mem_mapFind? t s pe.2 (table_nodup_keys input t h) hmem, hmem⟩

/-! ## Encoder equations -/

theorem Encode_nil (m : List (Nat × List Bool)) : Encode m [] = [] := rfl

theorem Encode_cons (m : List (Nat × List Bool)) (c : Nat) (b : List Nat) :
    Encode m (c :: b) = encodeSym m c ++ Encode m b := by
  simp [Encode]

/-! ## Decoder lemmas -/

theorem scanFold_no (m : List (Nat × List Bool)) :
    ∀ st : List Bool × List Nat, (∀ e ∈ m, e.2 ≠ st.1) →
      m.foldl (fun st e => if e.2 = st.1 then ([], st.2 ++ [e.1]) else st) st = st := by
  induction m with
  | nil => intro st _; rfl
  | cons e ms ih =>
    intro st h
    simp only [List.foldl_cons, if_neg (h e (by simp))]
    exact ih st (fun e' he' => h e' (by simp [he']))

theorem scanStep_no (m : List (Nat × List Bool)) (accum : List Bool)
    (h : ∀ e ∈ m, e.2 ≠ accum) : scanStep m accum = (accum, []) :=
  scanFold_no m (accum, []) h

theorem scanStep_hit (t1 t2 : List (Nat × List Bool)) (c : Nat) (w : List Bool)
    (h1 : ∀ e ∈ t1, e.2 ≠ w) (h2 : ∀ e ∈ t2, e.2 ≠ []) :
    scanStep (t1 ++ (c, w) :: t2) w = ([], [c]) := by
  unfold scanStep
  rw [List.foldl_append, scanFold_no t1 (w, []) h1]
  simp only [List.foldl_cons, if_pos rfl]
  exact scanFold_no t2 ([], [c]) h2

theorem decodeLoop_skip (m : List (Nat × List Bool)) (u : List Bool) :
    ∀ (a rest : List Bool),
      (∀ i, 1 ≤ i → i ≤ u.length → ∀ e ∈ m, e.2 ≠ a ++ u.take i) →
      decodeLoop m (u ++ rest) a = decodeLoop m rest (a ++ u) := by
  induction u with
  | nil => intro a rest _; simp
  | cons b u' ih =>
    intro a rest h
    show decodeLoop m (b :: (u' ++ rest)) a = _
    simp only [decodeLoop]
    have hno : ∀ e ∈ m, e.2 ≠ a ++ [b] := by
      intro e he
      have := h 1 (by omega) (by simp) e he
      simpa using this
    rw [scanStep_no m _ hno]
    have hrec := ih (a ++ [b]) rest (by
      intro i h1 h2 e he
      have := h (i + 1) (by omega) (by simp; omega) e he
      simpa [List.append_assoc] using this)
    simpa [List.append_assoc] using hrec

theorem pfx_antisymm_len (u v : List Bool) (h : pfx u v) (hlen : v.length ≤ u.length) :
    u = v := by
  have h1 := pfx_length_le u v h
  unfold pfx at h
  rw [List.take_of_length_le (by omega)] at h
  exact h.symm

theorem decodeLoop_code (t : List (Nat × List Bool)) (hG : GoodT t) (c : Nat)
    (w : List Bool) (hm : (c, w) ∈ t) (rest : List Bool) :
    decodeLoop t (w ++ rest) [] = c :: decodeLoop t rest [] := by
  obtain ⟨hnd, hne, hinc⟩ := hG
  have hwne : w ≠ [] := hne (c, w) hm
  obtain ⟨w', bl, rfl⟩ : ∃ w' bl, w = w' ++ [bl] := by
    rcases w.eq_nil_or_concat with rfl | ⟨w', bl, hw⟩
    · exact absurd rfl hwne
    · exact ⟨w', bl, by simp [hw]⟩
  have hskip : ∀ i, 1 ≤ i → i ≤ w'.length → ∀ e ∈ t, e.2 ≠ [] ++ w'.take i := by
    intro i h1 h2 e he hw
    simp only [List.nil_append] at hw
    have hpfx : pfx e.2 (w' ++ [bl]) := by
      rw [hw]
      exact pfx_trans _ _ _ (pfx_take w' i) (pfx_append w' [bl])
    by_cases hec : e = (c, w' ++ [bl])
    · have : e.2 = w' ++ [bl] := by rw [hec]
      rw [hw] at this
      have := congrArg List.length this
      simp [List.length_take] at this
      omega
    · exact (hinc e he (c, w' ++ [bl]) hm hec).1 hpfx
  rw [List.append_assoc, decodeLoop_skip t w' [] ([bl] ++ rest) hskip]
  simp only [List.nil_append, decodeLoop]
  obtain ⟨t1, t2, rfl⟩ := List.append_of_mem hm
  have h1 : ∀ e ∈ t1, e.2 ≠ w' ++ [bl] := by
    intro e he1 hw
    have het : e ∈ t1 ++ (c, w' ++ [bl]) :: t2 := by simp [he1]
    by_cases hec : e = (c, w' ++ [bl])
    · have hkey : c ∈ t1.map Prod.fst := by
        refine List.mem_map.mpr ⟨e, he1, ?_⟩
        rw [hec]
      have : ¬ ((t1 ++ (c, w' ++ [bl]) :: t2).map Prod.fst).Nodup := by
        intro hnod
        rw [List.map_append] at hnod
        have := (List.nodup_append.mp hnod).2.2
        exact this hkey (by simp)
      exact this hnd
    · exact (hinc e het (c, w' ++ [bl]) hm hec).1 (by rw [hw]; exact pfx_refl _)
  have h2 : ∀ e ∈ t2, e.2 ≠ [] := fun e he => hne e (by simp [he])
  rw [scanStep_hit t1 t2 c (w' ++ [bl]) h1 h2]
  simp

theorem decode_encode_aux (t : List (Nat × List Bool)) (hG : GoodT t) :
    ∀ (b : List Nat) (rest : List Bool),
      (∀ s ∈ b, ∃ w, mapFind? t s = some w) →
      decodeLoop t (Encode t b ++ rest) [] = b ++ decodeLoop t rest [] := by
  intro b
  induction b with
  | nil => intro rest _; simp [Encode]
  | cons s b' ih =>
    intro rest hcov
    obtain ⟨w, hw⟩ := hcov s (by simp)
    have hmem : (s, w) ∈ t := mapFind?_mem t s w hw
    rw [Encode_cons]
    have he : encodeSym t s = w := by simp [encodeSym, hw]
    rw [he, List.append_assoc, decodeLoop_code t hG s w hmem]
    rw [ih rest (fun s' hs' => hcov s' (by simp [hs']))]
    simp

theorem decodeLoop_partial (t : List (Nat × List Bool)) (hG : GoodT t) (c : Nat)
    (w : List Bool) (hm : (c, w) ∈ t) (p : List Bool) (hp : pfx p w) (hne : p ≠ w) :
    decodeLoop t p [] = [] := by
  obtain ⟨hnd, hnonempty, hinc⟩ := hG
  have hlen : p.length < w.length := by
    have h1 := pfx_length_le p w hp
    rcases lt_or_eq_of_le h1 with h | h
    · exact h
    · exact absurd (pfx_antisymm_len p w hp (by omega)) hne
  have hskip : ∀ i, 1 ≤ i → i ≤ p.length → ∀ e ∈ t, e.2 ≠ [] ++ p.take i := by
    intro i h1 h2 e he hw
    simp only [List.nil_append] at hw
    have hpfx : pfx e.2 w := by
      rw [hw]
      exact pfx_trans _ _ _ (pfx_take p i) hp
    by_cases hec : e = (c, w)
    · have hew : e.2 = w := by rw [hec]
      rw [hw] at hew
      have := congrArg List.length hew
      simp [List.length_take] at this
      omega
    · exact (hinc e he (c, w) hm hec).1 hpfx
  have := decodeLoop_skip t p [] [] hskip
  simpa using this

/-! ## Remaining helpers for the claims -/

theorem two_mem_le_length {α : Type} (l : List α) (x y : α) (hx : x ∈ l)
    (hy : y ∈ l) (hne : x ≠ y) : 2 ≤ l.length := by
  rcases l with _ | ⟨a, t⟩
  · simp at hx
  rcases t with _ | ⟨b, t'⟩
  · simp at hx hy
    rw [hx, hy] at hne
    exact absurd rfl hne
  · simp only [List.length_cons]
    omega

theorem root_is_node (root : treenode) (h : 2 ≤ (chars root).length) :
    ∃ p lc rc l r, root = treenode.node p lc rc l r := by
  cases root with
  | leaf c p =>
    rw [chars_leaf] at h
    simp at h
  | node p lc rc l r => exact ⟨p, lc, rc, l, r, rfl⟩

theorem initTops_sorted (input : List Nat) : sortedDesc (initTops input) := by
  unfold sortedDesc initTops
  rw [List.pairwise_map]
  exact sortDesc_sorted _

theorem reinsert_takeWhile (n : treenode) (l : List treenode) :
    reinsert n l = l.takeWhile (fun t => !decide (t.p < n.p)) ++
      n :: l.dropWhile (fun t => !decide (t.p < n.p)) := by
  induction l with
  | nil => rfl
  | cons t ts ih =>
    rw [List.takeWhile_cons, List.dropWhile_cons]
    by_cases h : t.p < n.p
    · simp [reinsert, h]
    · simp [reinsert, h, ih]

/-! ## The claims -/

/-- Claim C1, counterexample: the claim quantifies over every non-empty byte
sequence, but on the single-distinct-symbol input "aa" the produced table maps
the symbol to the empty codeword, the encoded stream is empty, and decoding
returns the empty sequence, not the original input. -/
theorem claim_C1_counterexample :
    BuildCode [97, 97] = some [(97, [])] ∧
      Decode [(97, [])] (Encode [(97, [])] [97, 97]) ≠ [97, 97] := by decide

/-- Claim C1, amended: for every input with at least two distinct byte values,
decoding the encoding of the input under the produced table yields the input. -/
theorem claim_C1_roundtrip (input : List Nat) (t : List (Nat × List Bool))
    (h : BuildCode input = some t) (h2 : 2 ≤ (mapKeys input).length) :
    Decode t (Encode t input) = input := by
  have hG := BuildCode_goodT input t h h2
  have hcov : ∀ s ∈ input, ∃ w, mapFind? t s = some w := fun s hs =>
    (table_covers input t h s hs).imp (fun w hw => hw.1)
  have hmain := decode_encode_aux t hG input [] hcov
  simpa [Decode, decodeLoop] using hmain

/-- Witness for the amended claim C1 at the concrete input "abb". -/
theorem claim_C1_witness :
    Decode [(97, [false]), (98, [true])]
      (Encode [(97, [false]), (98, [true])] [97, 98, 98]) = [97, 98, 98] :=
  claim_C1_roundtrip [97, 98, 98] [(97, [false]), (98, [true])] (by decide) (by decide)

/-- Claim C2: in every produced code table, no entry's codeword is a proper
prefix of the codeword of an entry for a different symbol. -/
theorem claim_C2_no_proper_pfx (input : List Nat) (t : List (Nat × List Bool))
    (h : BuildCode input = some t) :
    ∀ e1 ∈ t, ∀ e2 ∈ t, e1.1 ≠ e2.1 → ¬ (pfx e1.2 e2.2 ∧ e1.2 ≠ e2.2) := by
  intro e1 he1 e2 he2 hne hcon
  by_cases hlen : 2 ≤ (mapKeys input).length
  · have hG := BuildCode_goodT input t h hlen
    exact (hG.2.2 e1 he1 e2 he2 (fun he => hne (by rw [he]))).1 hcon.1
  · have h1 : e1.1 ∈ t.map Prod.fst := List.mem_map.mpr ⟨e1, he1, rfl⟩
    have h2 : e2.1 ∈ t.map Prod.fst := List.mem_map.mpr ⟨e2, he2, rfl⟩
    have hge := two_mem_le_length _ _ _ h1 h2 hne
    have hp : (t.map Prod.fst).length = (mapKeys input).length := by
      obtain ⟨root, _, _, hchars, hperm⟩ := BuildCode_some input t h
      have hk : (t.map Prod.fst).Perm (chars root) := by
        have := hperm.map Prod.fst
        rw [List.map_map] at this
        exact this
      rw [hk.length_eq, hchars.length_eq]
    omega

/-- Witness for claim C2 on the table built from "aaabc". -/
theorem claim_C2_witness : ¬ (pfx [true] [false, true] ∧ [true] ≠ [false, true]) :=
  claim_C2_no_proper_pfx [97, 97, 97, 98, 99]
    [(97, [true]), (98, [false, true]), (99, [false, false])] (by decide)
    (97, [true]) (by decide) (98, [false, true]) (by decide) (by decide)

/-- Claim C4: on the single-symbol input "aaaa" the code, contrary to the
specification, produces a one-entry table whose codeword is empty, and the
encode/decode round trip loses the input (it returns the empty sequence). -/
theorem claim_C4_single_symbol :
    BuildCode [97, 97, 97, 97] = some [(97, [])] ∧
      Decode [(97, [])] (Encode [(97, [])] [97, 97, 97, 97]) = [] := by decide

/-- Claim C5: on the empty input the merge loop leaves the vector `tops`
empty and `EncHuffman` reads `tops[0]`, which is out of bounds (undefined
behavior, modeled as `none`); the encoding loop itself would emit nothing. -/
theorem claim_C5_empty_input :
    BuildCode [] = none ∧
      Encode ([] : List (Nat × List Bool)) ([] : List Nat) = [] := by decide

/-- Claim C6, counterexample: decoding the strict, non-codeword-aligned
prefix [0,1,0] of the valid stream [0,1,0,0] (the encoding of "bc" under the
table built from "aaabc") silently returns the shortened output "b"; the
decoder has no failure path at all, contrary to the claimed
`TruncatedStream` error. -/
theorem claim_C6_counterexample :
    BuildCode [97, 97, 97, 98, 99] =
        some [(97, [true]), (98, [false, true]), (99, [false, false])] ∧
      Decode [(97, [true]), (98, [false, true]), (99, [false, false])]
        ((Encode [(97, [true]), (98, [false, true]), (99, [false, false])]
          [98, 99]).take 3) = [98] ∧
      ([98] : List Nat) ≠ [98, 99] := by decide

/-- Claim C6, amended: when the bit stream is cut in the middle of a
codeword, the decoder silently emits exactly the symbols whose codewords were
fully consumed and drops the trailing partial accumulator; no error of any
kind is reported. -/
theorem claim_C6_truncated (input : List Nat) (t : List (Nat × List Bool))
    (h : BuildCode input = some t) (h2 : 2 ≤ (mapKeys input).length)
    (b : List Nat) (hb : ∀ s ∈ b, s ∈ input) (c : Nat) (w p : List Bool)
    (hcw : (c, w) ∈ t) (hp : pfx p w) (hpw : p ≠ w) :
    Decode t (Encode t b ++ p) = b := by
  have hG := BuildCode_goodT input t h h2
  have hcov : ∀ s ∈ b, ∃ w, mapFind? t s = some w := fun s hs =>
    (table_covers input t h s (hb s hs)).imp (fun w hw => hw.1)
  have h1 := decode_encode_aux t hG b p hcov
  have h2' := decodeLoop_partial t hG c w hcw p hp hpw
  simp [Decode] at h1 ⊢
  rw [h1, h2']
  simp

/-- Witness for the amended claim C6 on the table built from "aaabc". -/
theorem claim_C6_witness :
    Decode [(97, [true]), (98, [false, true]), (99, [false, false])]
      (Encode [(97, [true]), (98, [false, true]), (99, [false, false])]
        [98, 99] ++ [false]) = [98, 99] :=
  claim_C6_truncated [97, 97, 97, 98, 99]
    [(97, [true]), (98, [false, true]), (99, [false, false])] (by decide) (by decide)
    [98, 99] (by decide) 98 [false, true] [false] (by decide) (by decide) (by decide)

/-- Claim C9, counterexample: encoding the input "ab" against a table that
only knows "b" silently drops the unknown byte (map subscripting yields the
empty string) and returns the codeword of "b" alone; no `UnknownSymbol`
failure exists in the code. -/
theorem claim_C9_counterexample :
    Encode [(98, [false])] [97, 98] = [false] := by decide

/-- Claim C9, amended: a byte with no table entry contributes the
default-constructed empty codeword to the output; encoding never fails. -/
theorem claim_C9_unknown_symbol (t : List (Nat × List Bool)) (c : Nat)
    (input : List Nat) (h : mapFind? t c = none) :
    encodeSym t c = [] ∧ Encode t (c :: input) = Encode t input := by
  have he : encodeSym t c = [] := by simp [encodeSym, h]
  exact ⟨he, by rw [Encode_cons, he]; simp⟩

/-- Witness for the amended claim C9. -/
theorem claim_C9_witness :
    encodeSym [(98, [false])] 97 = [] ∧
      Encode [(98, [false])] (97 :: [98]) = Encode [(98, [false])] [98] :=
  claim_C9_unknown_symbol [(98, [false])] 97 [98] (by decide)

/-- Claim C10: when the input has at least two distinct byte values, every
codeword of the produced table is non-empty and no longer than the number of
distinct values minus one. -/
theorem claim_C10_lengths (input : List Nat) (t : List (Nat × List Bool))
    (h : BuildCode input = some t) (h2 : 2 ≤ (mapKeys input).length) :
    ∀ e ∈ t, e.2 ≠ [] ∧ e.2.length ≤ (mapKeys input).length - 1 := by
  obtain ⟨root, hL, hwf, hchars, hperm⟩ := BuildCode_some input t h
  intro e he
  rcases List.mem_map.mp (hperm.subset he) with ⟨pe, hpe, rfl⟩
  have hlen : (chars root).length = (mapKeys input).length := hchars.length_eq
  constructor
  · obtain ⟨p, lc, rc, l, r, rfl⟩ := root_is_node root (by omega)
    exact paths_node_nonempty _ _ _ _ _ pe hpe
  · have := paths_length_le root pe hpe
    show pe.2.length ≤ (mapKeys input).length - 1
    omega

/-- Witness for claim C10 on the table built from "aaabc". -/
theorem claim_C10_witness :
    ([true] : List Bool) ≠ [] ∧ ([true] : List Bool).length ≤ (mapKeys [97, 97, 97, 98, 99]).length - 1 :=
  claim_C10_lengths [97, 97, 97, 98, 99]
    [(97, [true]), (98, [false, true]), (99, [false, false])] (by decide) (by decide)
    (97, [true]) (by decide)

/-- Claim C7: the initial working collection is sorted by descending weight;
one merge iteration preserves that order; and, on a sorted collection of at
least two nodes, the iteration removes exactly the two trailing nodes (whose
weights are minimal: the last is below everything, the second-to-last below
everything ahead of it) and re-inserts the combined node immediately before
the first remaining element of strictly smaller weight, or appends it when no
such element exists — the `takeWhile`/`dropWhile` split below. -/
theorem claim_C7_invariant (input : List Nat) (tops : List treenode) :
    sortedDesc (initTops input) ∧
    (sortedDesc tops → sortedDesc (hstep tops)) ∧
    (sortedDesc tops → ∀ ys a b, tops = ys ++ [a, b] →
      b.p ≤ a.p ∧ (∀ x ∈ tops, b.p ≤ x.p) ∧ (∀ x ∈ ys, a.p ≤ x.p) ∧
      hstep tops = ys.takeWhile (fun t => !decide (t.p < (mkNode a b).p)) ++
        mkNode a b :: ys.dropWhile (fun t => !decide (t.p < (mkNode a b).p))) := by
  refine ⟨initTops_sorted input, ?_, ?_⟩
  · intro hs
    rcases Nat.lt_or_ge tops.length 2 with h | h
    · rcases tops with _ | ⟨x, _ | ⟨y, t⟩⟩
      · exact hs
      · exact hs
      · simp only [List.length_cons] at h
        omega
    · obtain ⟨ys, a, b, rfl⟩ := exists_snoc2 tops h
      rw [hstep_snoc]
      have hs' : List.Pairwise (fun s t => t.p ≤ s.p) (ys ++ [a, b]) := hs
      exact reinsert_sorted _ _ (hs'.sublist (List.sublist_append_left ys [a, b]))
  · intro hs ys a b heq
    subst heq
    have hs' : List.Pairwise (fun s t => t.p ≤ s.p) (ys ++ [a, b]) := hs
    obtain ⟨hys, hab, hcross⟩ := List.pairwise_append.mp hs'
    have hba : b.p ≤ a.p := (List.pairwise_cons.mp hab).1 b (List.mem_cons_self b [])
    refine ⟨hba, ?_, ?_, ?_⟩
    · intro x hx
      rcases List.mem_append.mp hx with hx | hx
      · exact hcross x hx b (by simp)
      · rcases List.mem_cons.mp hx with rfl | hx
        · exact hba
        · simp at hx
          rw [hx]
    · intro x hx
      exact hcross x hx a (by simp)
    · rw [hstep_snoc, reinsert_takeWhile]

/-- Witness for claim C7 at the working collection built from "aab". -/
theorem claim_C7_witness :
    sortedDesc (initTops [97, 97, 98]) ∧
      sortedDesc (hstep [treenode.leaf 97 2, treenode.leaf 98 1]) ∧
      (treenode.leaf 98 1).p ≤ (treenode.leaf 97 2).p ∧
      hstep [treenode.leaf 97 2, treenode.leaf 98 1] =
        [mkNode (treenode.leaf 97 2) (treenode.leaf 98 1)] := by
  have h := claim_C7_invariant [97, 97, 98] [treenode.leaf 97 2, treenode.leaf 98 1]
  have h3 := h.2.2 (by decide) [] (treenode.leaf 97 2) (treenode.leaf 98 1) rfl
  exact ⟨h.1, h.2.1 (by decide), h3.1, by rw [h3.2.2.2]; rfl⟩

/-- Claim C8: in the merge step, a child of strictly smaller weight gets edge
bit 0 (`false` here, the source's character `'0'`) and the other child bit 1;
on equal weights the labels are the fixed pair `lcode = '1'`, `rcode = '0'`,
so the tie-break is deterministic — and the whole construction is a pure
function of the input, so repeated runs produce identical codes. -/
theorem claim_C8_labels (l r : treenode) :
    (l.p < r.p → mkNode l r = .node (l.p + r.p) false true l r) ∧
    (r.p < l.p → mkNode l r = .node (l.p + r.p) true false l r) ∧
    (l.p = r.p → mkNode l r = .node (l.p + r.p) true false l r) := by
  unfold mkNode
  refine ⟨fun h => by rw [if_pos h], fun h => by rw [if_neg (by omega)],
    fun h => by rw [if_neg (by omega)]⟩

/-- Witness for claim C8: a strictly smaller left child gets bit 0, and an
equal-weight pair gets the deterministic labels (1, 0). -/
theorem claim_C8_witness :
    mkNode (treenode.leaf 97 1) (treenode.leaf 98 2) =
        treenode.node 3 false true (treenode.leaf 97 1) (treenode.leaf 98 2) ∧
      mkNode (treenode.leaf 97 2) (treenode.leaf 98 2) =
        treenode.node 4 true false (treenode.leaf 97 2) (treenode.leaf 98 2) :=
  ⟨(claim_C8_labels (treenode.leaf 97 1) (treenode.leaf 98 2)).1 (by decide),
    (claim_C8_labels (treenode.leaf 97 2) (treenode.leaf 98 2)).2.2 (by decide)⟩

/-! ## Weighted path length of the produced tree (for optimality) -/

/-- Total weight of the leaves of a tree. -/
def leafW : treenode → Nat
  | .leaf _ p => p
  | .node _ _ _ l r => leafW l + leafW r

/-- Internal node weights are the sums of their leaf weights (an invariant of
the merge loop, since `mkNode` sums the two child weights). -/
def wconsistent : treenode → Prop
  | .leaf _ _ => True
  | .node p _ _ l r => p = leafW l + leafW r ∧ wconsistent l ∧ wconsistent r

/-- Weighted external path length: the sum over leaves of weight times depth,
written through the standard recurrence (each merge contributes the weights
of both subtrees, i.e. every leaf gets one unit deeper). -/
def tcost : treenode → Nat
  | .leaf _ _ => 0
  | .node _ _ _ l r => tcost l + tcost r + leafW l + leafW r

/-- The re-insertion scan of the merge loop projected onto weights. -/
def reinsertW (w : Nat) : List Nat → List Nat
  | [] => [w]
  | x :: xs => if x < w then w :: x :: xs else x :: reinsertW w xs

/-- The merge loop projected onto weights, accumulating the cost added by
each merge (the sum of the two merged weights), with fuel. -/
def wcostF : Nat → List Nat → Nat
  | 0, _ => 0
  | fuel + 1, W =>
    match W with
    | [] => 0
    | [_] => 0
    | a :: b :: rest =>
      let l := (a :: b :: rest).dropLast.getLastD a
      let r := (a :: b :: rest).getLastD a
      wcostF fuel (reinsertW (l + r) (a :: b :: rest).dropLast.dropLast) + l + r

/-- Total cost charged by the merge loop on a list of weights. -/
def wcost (W : List Nat) : Nat := wcostF W.length W

theorem reinsertW_length (w : Nat) (l : List Nat) :
    (reinsertW w l).length = l.length + 1 := by
  induction l with
  | nil => rfl
  | cons x xs ih => simp only [reinsertW]; split <;> simp [ih]

theorem reinsertW_perm (w : Nat) (l : List Nat) : (reinsertW w l).Perm (w :: l) := by
  induction l with
  | nil => exact List.Perm.refl _
  | cons x xs ih =>
    simp only [reinsertW]; split
    · exact List.Perm.refl _
    · exact (ih.cons x).trans (List.Perm.swap w x xs)

theorem reinsertW_sorted (w : Nat) (l : List Nat)
    (h : l.Pairwise (fun a b => b ≤ a)) :
    (reinsertW w l).Pairwise (fun a b => b ≤ a) := by
  induction l with
  | nil => simp [reinsertW]
  | cons x xs ih =>
    rcases List.pairwise_cons.mp h with ⟨hx, hxs⟩
    simp only [reinsertW]; split
    · refine List.pairwise_cons.mpr ⟨?_, h⟩
      intro y hy
      rcases List.mem_cons.mp hy with rfl | hy
      · omega
      · have := hx y hy; omega
    · refine List.pairwise_cons.mpr ⟨?_, ih hxs⟩
      intro y hy
      rcases List.mem_cons.mp ((reinsertW_perm w xs).mem_iff.mp hy) with rfl | hy
      · omega
      · exact hx y hy

theorem wcostF_small (f : Nat) (W : List Nat) (h : W.length ≤ 1) :
    wcostF f W = 0 := by
  cases f with
  | zero => rfl
  | succ f =>
    rcases W with _ | ⟨x, _ | ⟨y, t⟩⟩
    · rfl
    · rfl
    · simp at h

theorem wcost_small (W : List Nat) (h : W.length ≤ 1) : wcost W = 0 :=
  wcostF_small _ _ h

theorem wcostF_cc (f : Nat) (x z : Nat) (rest : List Nat) :
    wcostF (f + 1) (x :: z :: rest) =
      wcostF f (reinsertW ((x :: z :: rest).dropLast.getLastD x +
          (x :: z :: rest).getLastD x) (x :: z :: rest).dropLast.dropLast) +
        (x :: z :: rest).dropLast.getLastD x + (x :: z :: rest).getLastD x := rfl

theorem wcostF_snoc (f : Nat) (ys : List Nat) (a b : Nat) :
    wcostF (f + 1) (ys ++ [a, b]) = wcostF f (reinsertW (a + b) ys) + a + b := by
  rcases ys with _ | ⟨y, t⟩
  · rfl
  rcases t with _ | ⟨z, t'⟩
  · rfl
  have e : y :: z :: (t' ++ [a, b]) = ((y :: z :: t') ++ [a]) ++ [b] := by simp
  rw [show (y :: z :: t') ++ [a, b] = y :: z :: (t' ++ [a, b]) by simp, wcostF_cc, e,
    List.dropLast_concat, List.getLastD_concat, List.getLastD_concat, List.dropLast_concat]

theorem wcostF_fuel (f : Nat) : ∀ (g : Nat) (W : List Nat),
    W.length ≤ f + 1 → W.length ≤ g + 1 → wcostF f W = wcostF g W := by
  induction f with
  | zero => intro g W hf _; rw [wcostF_small 0 W hf, wcostF_small g W hf]
  | succ f ih =>
    intro g W hf hg
    by_cases h1 : W.length ≤ 1
    · rw [wcostF_small _ _ h1, wcostF_small _ _ h1]
    cases g with
    | zero => omega
    | succ g =>
      obtain ⟨ys, a, b, rfl⟩ := exists_snoc2 W (by omega)
      rw [wcostF_snoc, wcostF_snoc]
      have hl : (reinsertW (a + b) ys).length = ys.length + 1 := reinsertW_length _ _
      have hlen : (ys ++ [a, b]).length = ys.length + 2 := by simp
      have := ih g (reinsertW (a + b) ys) (by omega) (by omega)
      omega

theorem wcost_snoc (ys : List Nat) (a b : Nat) :
    wcost (ys ++ [a, b]) = wcost (reinsertW (a + b) ys) + a + b := by
  unfold wcost
  have hlen : (ys ++ [a, b]).length = (ys.length + 1) + 1 := by simp
  rw [hlen, wcostF_snoc]
  have hl : (reinsertW (a + b) ys).length = ys.length + 1 := reinsertW_length _ _
  rw [wcostF_fuel (ys.length + 1) (reinsertW (a + b) ys).length _ (by omega) (by omega)]

/-! ## The loop cost identity -/

theorem mkNode_p (l r : treenode) : (mkNode l r).p = l.p + r.p := by
  unfold mkNode; split <;> rfl

theorem wcons_p (t : treenode) (h : wconsistent t) : t.p = leafW t := by
  cases t with
  | leaf c p => rfl
  | node p lc rc l r => exact h.1

theorem wconsistent_mkNode (l r : treenode) (hl : wconsistent l) (hr : wconsistent r) :
    wconsistent (mkNode l r) := by
  have hp : l.p + r.p = leafW l + leafW r := by
    rw [wcons_p l hl, wcons_p r hr]
  unfold mkNode
  split <;> exact ⟨hp, hl, hr⟩

theorem tcost_mkNode (l r : treenode) :
    tcost (mkNode l r) = tcost l + tcost r + leafW l + leafW r := by
  unfold mkNode; split <;> rfl

theorem leafW_mkNode (l r : treenode) : leafW (mkNode l r) = leafW l + leafW r := by
  unfold mkNode; split <;> rfl

theorem map_p_reinsert (n : treenode) (l : List treenode) :
    (reinsert n l).map treenode.p = reinsertW n.p (l.map treenode.p) := by
  induction l with
  | nil => rfl
  | cons t ts ih =>
    simp only [reinsert, reinsertW, List.map_cons]
    split
    · simp
    · simp [ih]

/-- Sum of the tree costs of a working collection. -/
def tcostSum (tops : List treenode) : Nat := (tops.map tcost).sum

theorem loop_cost : ∀ (n : Nat) (tops : List treenode) (root : treenode),
    tops.length ≤ n → huffLoop tops = [root] → (∀ t ∈ tops, wconsistent t) →
    tcost root = tcostSum tops + wcost (tops.map treenode.p) := by
  intro n
  induction n with
  | zero =>
    intro tops root hn hL _
    have : tops.length = 0 := by omega
    rw [List.length_eq_zero.mp this] at hL
    simp [huffLoop, huffLoopF] at hL
  | succ n ih =>
    intro tops root hn hL hcons
    by_cases h1 : tops.length ≤ 1
    · rw [huffLoop_fix tops h1] at hL
      subst hL
      have hz : wcost [root.p] = 0 := wcost_small _ (by simp)
      simp [tcostSum, hz]
    · obtain ⟨ys, a, b, rfl⟩ := exists_snoc2 tops (by omega)
      rw [huffLoop_step _ (by omega), hstep_snoc] at hL
      have hlen : (ys ++ [a, b]).length = ys.length + 2 := by simp
      have hconsa : wconsistent a := hcons a (by simp)
      have hconsb : wconsistent b := hcons b (by simp)
      have hcons' : ∀ t ∈ reinsert (mkNode a b) ys, wconsistent t := by
        intro t ht
        rcases (mem_reinsert t _ _).mp ht with rfl | ht
        · exact wconsistent_mkNode a b hconsa hconsb
        · exact hcons t (by simp [ht])
      have hrec := ih (reinsert (mkNode a b) ys) root
        (by rw [reinsert_length]; omega) hL hcons'
      have hsum : tcostSum (reinsert (mkNode a b) ys) =
          tcost (mkNode a b) + tcostSum ys := by
        unfold tcostSum
        rw [((reinsert_perm (mkNode a b) ys).map tcost).sum_eq]
        simp
      have hmap : (reinsert (mkNode a b) ys).map treenode.p =
          reinsertW (a.p + b.p) (ys.map treenode.p) := by
        rw [map_p_reinsert, mkNode_p]
      have hwc : wcost ((ys ++ [a, b]).map treenode.p) =
          wcost (reinsertW (a.p + b.p) (ys.map treenode.p)) + a.p + b.p := by
        have : (ys ++ [a, b]).map treenode.p = ys.map treenode.p ++ [a.p, b.p] := by
          simp
        rw [this, wcost_snoc]
      have htm : tcostSum (ys ++ [a, b]) = tcostSum ys + tcost a + tcost b := by
        unfold tcostSum
        simp
        omega
      rw [hrec, hsum, hmap, hwc, htm, tcost_mkNode]
      rw [← wcons_p a hconsa, ← wcons_p b hconsb]
      omega

/-! ## Kraft sums -/

/-- The Kraft contribution of one codeword length. -/
def kw (l : Nat) : ℚ := (1 / 2) ^ l

/-- The Kraft sum of a list of codeword lengths. -/
def ksum (L : List Nat) : ℚ := (L.map kw).sum

theorem kw_pos (l : Nat) : 0 < kw l := pow_pos (by norm_num) l

theorem ksum_cons (x : Nat) (L : List Nat) : ksum (x :: L) = kw x + ksum L := by
  simp [ksum]

theorem ksum_nonneg (L : List Nat) : 0 ≤ ksum L := by
  refine List.sum_nonneg ?_
  intro x hx
  rcases List.mem_map.mp hx with ⟨l, _, rfl⟩
  exact le_of_lt (kw_pos l)

theorem ksum_perm (L1 L2 : List Nat) (h : L1.Perm L2) : ksum L1 = ksum L2 :=
  (h.map kw).sum_eq

theorem kw_pred (l : Nat) (h : 1 ≤ l) : kw (l - 1) = kw l + kw l := by
  obtain ⟨m, rfl⟩ : ∃ m, l = m + 1 := ⟨l - 1, by omega⟩
  rw [show m + 1 - 1 = m from rfl]
  unfold kw
  rw [pow_succ]
  ring

theorem kw_mul_pow (x d : Nat) : kw (x + d) * 2 ^ d = kw x := by
  unfold kw
  rw [pow_add, mul_assoc, ← mul_pow]
  norm_num

theorem pow_mul_kw (m : Nat) : (2 : ℚ) ^ m * kw m = 1 := by
  unfold kw
  rw [← mul_pow]
  norm_num

theorem ksum_dyadic (B : Nat) : ∀ L : List Nat, (∀ x ∈ L, x ≤ B) →
    ∃ k : Nat, ksum L = (k : ℚ) * kw B := by
  intro L
  induction L with
  | nil => intro _; exact ⟨0, by simp [ksum]⟩
  | cons x L ih =>
    intro h
    obtain ⟨k, hk⟩ := ih (fun y hy => h y (by simp [hy]))
    have hx : x ≤ B := h x (by simp)
    refine ⟨2 ^ (B - x) + k, ?_⟩
    rw [ksum_cons, hk]
    have hkw : kw x = ((2 : ℚ) ^ (B - x)) * kw B := by
      have h1 := kw_mul_pow x (B - x)
      rw [show x + (B - x) = B by omega] at h1
      rw [← h1]
      ring
    push_cast
    rw [hkw]
    ring

theorem ksum_promote (l : Nat) (rest : List Nat) (hl : 1 ≤ l)
    (hb : ∀ x ∈ rest, x ≤ l - 1) (h : ksum (l :: rest) ≤ 1) :
    ksum ((l - 1) :: rest) ≤ 1 := by
  obtain ⟨k, hk⟩ := ksum_dyadic (l - 1) rest hb
  rw [ksum_cons, hk] at h ⊢
  have hkl : kw (l - 1) = kw l + kw l := kw_pred l hl
  have hpos : (0 : ℚ) < kw l := kw_pos l
  have h2 : ((1 : ℚ) + 2 * k) * kw l ≤ 2 ^ l * kw l := by
    calc ((1 : ℚ) + 2 * k) * kw l = kw l + k * kw (l - 1) := by rw [hkl]; ring
    _ ≤ 1 := h
    _ = 2 ^ l * kw l := (pow_mul_kw l).symm
  have h3 : (1 : ℚ) + 2 * k ≤ 2 ^ l := le_of_mul_le_mul_right h2 hpos
  have h4 : 1 + 2 * k ≤ 2 ^ l := by exact_mod_cast h3
  have h5 : 2 + 2 * k ≤ 2 ^ l := by
    have he : 2 ^ l = 2 * 2 ^ (l - 1) := by
      rw [show l = (l - 1) + 1 by omega]
      rw [show (l - 1) + 1 - 1 = l - 1 from rfl]
      rw [pow_succ]
      ring
    omega
  have h6 : ((2 : ℚ) + 2 * k) * kw l ≤ 2 ^ l * kw l := by
    have hc : ((2 : ℚ) + 2 * k) ≤ 2 ^ l := by exact_mod_cast h5
    exact mul_le_mul_of_nonneg_right hc (le_of_lt hpos)
  calc kw (l - 1) + k * kw (l - 1) = ((2 : ℚ) + 2 * k) * kw l := by rw [hkl]; ring
  _ ≤ 2 ^ l * kw l := h6
  _ = 1 := pow_mul_kw l

theorem ksum_merge (l : Nat) (rest : List Nat) (hl : 1 ≤ l) :
    ksum ((l - 1) :: rest) = ksum (l :: l :: rest) := by
  rw [ksum_cons, ksum_cons, ksum_cons, kw_pred l hl]
  ring

theorem ksum_two_zero (rest : List Nat) : ¬ (ksum (0 :: 0 :: rest) ≤ 1) := by
  rw [ksum_cons, ksum_cons]
  have h := ksum_nonneg rest
  have h0 : kw 0 = 1 := by unfold kw; norm_num
  rw [h0]
  intro hcon
  linarith

/-! ## The Kraft inequality for prefix-incomparable codeword lists -/

/-- Tails of the codewords starting with bit 0. -/
def tails0 (C : List (List Bool)) : List (List Bool) :=
  C.filterMap (fun w => match w with | false :: t => some t | _ => none)

/-- Tails of the codewords starting with bit 1. -/
def tails1 (C : List (List Bool)) : List (List Bool) :=
  C.filterMap (fun w => match w with | true :: t => some t | _ => none)

theorem tails0_cons_nil (C : List (List Bool)) : tails0 ([] :: C) = tails0 C := rfl

theorem tails0_cons_false (w : List Bool) (C : List (List Bool)) :
    tails0 ((false :: w) :: C) = w :: tails0 C := rfl

theorem tails0_cons_true (w : List Bool) (C : List (List Bool)) :
    tails0 ((true :: w) :: C) = tails0 C := rfl

theorem tails1_cons_nil (C : List (List Bool)) : tails1 ([] :: C) = tails1 C := rfl

theorem tails1_cons_false (w : List Bool) (C : List (List Bool)) :
    tails1 ((false :: w) :: C) = tails1 C := rfl

theorem tails1_cons_true (w : List Bool) (C : List (List Bool)) :
    tails1 ((true :: w) :: C) = w :: tails1 C := rfl

theorem mem_tails0 (C : List (List Bool)) (t : List Bool) :
    t ∈ tails0 C ↔ false :: t ∈ C := by
  induction C with
  | nil => simp [tails0]
  | cons w C ih =>
    rcases w with _ | ⟨b, w'⟩
    · rw [tails0_cons_nil]
      simp [ih]
    cases b
    · rw [tails0_cons_false]
      simp [ih]
    · rw [tails0_cons_true]
      simp [ih]

theorem mem_tails1 (C : List (List Bool)) (t : List Bool) :
    t ∈ tails1 C ↔ true :: t ∈ C := by
  induction C with
  | nil => simp [tails1]
  | cons w C ih =>
    rcases w with _ | ⟨b, w'⟩
    · rw [tails1_cons_nil]
      simp [ih]
    cases b
    · rw [tails1_cons_false]
      simp [ih]
    · rw [tails1_cons_true]
      simp [ih]

theorem tails0_pairwise (C : List (List Bool))
    (h : C.Pairwise (fun u v => ¬ pfx u v ∧ ¬ pfx v u)) :
    (tails0 C).Pairwise (fun u v => ¬ pfx u v ∧ ¬ pfx v u) := by
  induction C with
  | nil => simp [tails0]
  | cons w C ih =>
    rcases List.pairwise_cons.mp h with ⟨hw, hC⟩
    rcases w with _ | ⟨b, w'⟩
    · rw [tails0_cons_nil]; exact ih hC
    cases b
    · rw [tails0_cons_false]
      refine List.pairwise_cons.mpr ⟨?_, ih hC⟩
      intro t ht
      have hrel := hw (false :: t) ((mem_tails0 C t).mp ht)
      exact ⟨fun hp => hrel.1 ((pfx_cons false false w' t).mpr ⟨rfl, hp⟩),
        fun hp => hrel.2 ((pfx_cons false false t w').mpr ⟨rfl, hp⟩)⟩
    · rw [tails0_cons_true]; exact ih hC

theorem tails1_pairwise (C : List (List Bool))
    (h : C.Pairwise (fun u v => ¬ pfx u v ∧ ¬ pfx v u)) :
    (tails1 C).Pairwise (fun u v => ¬ pfx u v ∧ ¬ pfx v u) := by
  induction C with
  | nil => simp [tails1]
  | cons w C ih =>
    rcases List.pairwise_cons.mp h with ⟨hw, hC⟩
    rcases w with _ | ⟨b, w'⟩
    · rw [tails1_cons_nil]; exact ih hC
    cases b
    · rw [tails1_cons_false]; exact ih hC
    · rw [tails1_cons_true]
      refine List.pairwise_cons.mpr ⟨?_, ih hC⟩
      intro t ht
      have hrel := hw (true :: t) ((mem_tails1 C t).mp ht)
      exact ⟨fun hp => hrel.1 ((pfx_cons true true w' t).mpr ⟨rfl, hp⟩),
        fun hp => hrel.2 ((pfx_cons true true t w').mpr ⟨rfl, hp⟩)⟩

theorem ksum_split (C : List (List Bool)) (h : ∀ w ∈ C, w ≠ []) :
    ksum (C.map List.length) =
      (1 / 2) * (ksum ((tails0 C).map List.length) +
        ksum ((tails1 C).map List.length)) := by
  induction C with
  | nil => simp [tails0, tails1, ksum]
  | cons w C ih =>
    have hC := ih (fun v hv => h v (by simp [hv]))
    rcases w with _ | ⟨b, w'⟩
    · exact absurd rfl (h [] (by simp))
    have hkw : kw (w'.length + 1) = (1 / 2) * kw w'.length := by
      unfold kw
      rw [pow_succ]
      ring
    cases b
    · rw [tails0_cons_false, tails1_cons_false]
      simp only [List.map_cons, ksum_cons, List.length_cons]
      rw [hC, hkw]
      ring
    · rw [tails0_cons_true, tails1_cons_true]
      simp only [List.map_cons, ksum_cons, List.length_cons]
      rw [hC, hkw]
      ring

theorem pairwise_nil_mem (C : List (List Bool))
    (h : C.Pairwise (fun u v => ¬ pfx u v ∧ ¬ pfx v u)) (hm : [] ∈ C) : C = [[]] := by
  cases C with
  | nil => simp at hm
  | cons w C' =>
    rcases List.mem_cons.mp hm with h0 | h0
    · rw [← h0]
      have hC' : C' = [] := by
        by_contra hne
        obtain ⟨v, hv⟩ := List.exists_mem_of_ne_nil C' hne
        exact ((List.pairwise_cons.mp h).1 v hv).1 (h0 ▸ pfx_nil v)
      rw [hC']
    · exact absurd (pfx_nil w) ((List.pairwise_cons.mp h).1 [] h0).2

theorem kraft_bound : ∀ (n : Nat) (C : List (List Bool)),
    (∀ w ∈ C, w.length ≤ n) →
    C.Pairwise (fun u v => ¬ pfx u v ∧ ¬ pfx v u) →
    ksum (C.map List.length) ≤ 1 := by
  intro n
  induction n with
  | zero =>
    intro C hlen hpw
    rcases C with _ | ⟨w, C'⟩
    · simp [ksum]
    · have hw : w = [] := List.eq_nil_of_length_eq_zero (by
        have := hlen w (by simp)
        omega)
      subst hw
      rw [pairwise_nil_mem _ hpw (by simp)]
      simp [ksum, kw]
  | succ n ih =>
    intro C hlen hpw
    by_cases hnil : (([] : List Bool)) ∈ C
    · rw [pairwise_nil_mem C hpw hnil]
      simp [ksum, kw]
    · have hne : ∀ w ∈ C, w ≠ [] := fun w hw h0 => hnil (h0 ▸ hw)
      rw [ksum_split C hne]
      have h0 := ih (tails0 C) (fun t ht => by
        have := hlen (false :: t) ((mem_tails0 C t).mp ht)
        simp at this
        omega) (tails0_pairwise C hpw)
      have h1 := ih (tails1 C) (fun t ht => by
        have := hlen (true :: t) ((mem_tails1 C t).mp ht)
        simp at this
        omega) (tails1_pairwise C hpw)
      linarith

/-! ## Rearranging an adversary length assignment -/

/-- Cost of a list of (weight, codeword length) pairs. -/
def plCost (pl : List (Nat × Nat)) : Nat := (pl.map (fun e => e.1 * e.2)).sum

theorem plCost_cons (e : Nat × Nat) (pl : List (Nat × Nat)) :
    plCost (e :: pl) = e.1 * e.2 + plCost pl := by
  simp [plCost]

theorem plCost_perm (pl1 pl2 : List (Nat × Nat)) (h : pl1.Perm pl2) :
    plCost pl1 = plCost pl2 :=
  (h.map _).sum_eq

theorem extract_fst : ∀ (pl : List (Nat × Nat)) (w : Nat), w ∈ pl.map Prod.fst →
    ∃ l pl', pl.Perm ((w, l) :: pl') := by
  intro pl
  induction pl with
  | nil => intro w h; simp at h
  | cons e pl ih =>
    intro w h
    obtain ⟨a, b⟩ := e
    rw [List.map_cons] at h
    rcases List.mem_cons.mp h with rfl | hw
    · exact ⟨b, pl, List.Perm.refl _⟩
    · obtain ⟨l, pl', hp⟩ := ih w hw
      exact ⟨l, (a, b) :: pl', (hp.cons (a, b)).trans (List.Perm.swap (w, l) (a, b) pl')⟩

theorem extract_snd : ∀ (pl : List (Nat × Nat)) (m : Nat), m ∈ pl.map Prod.snd →
    ∃ u pl', pl.Perm ((u, m) :: pl') := by
  intro pl
  induction pl with
  | nil => intro m h; simp at h
  | cons e pl ih =>
    intro m h
    obtain ⟨a, b⟩ := e
    rw [List.map_cons] at h
    rcases List.mem_cons.mp h with rfl | hm
    · exact ⟨a, pl, List.Perm.refl _⟩
    · obtain ⟨u, pl', hp⟩ := ih m hm
      exact ⟨u, (a, b) :: pl', (hp.cons (a, b)).trans (List.Perm.swap (u, m) (a, b) pl')⟩

theorem max_attained : ∀ L : List Nat, L ≠ [] → ∃ m ∈ L, ∀ x ∈ L, x ≤ m := by
  intro L
  induction L with
  | nil => intro h; exact absurd rfl h
  | cons x L ih =>
    intro _
    by_cases hL : L = []
    · subst hL
      refine ⟨x, by simp, ?_⟩
      intro z hz
      rcases List.mem_cons.mp hz with rfl | hz
      · exact le_refl _
      · simp at hz
    · obtain ⟨m, hm, hmax⟩ := ih hL
      by_cases hxm : x ≤ m
      · refine ⟨m, by simp [hm], ?_⟩
        intro z hz
        rcases List.mem_cons.mp hz with rfl | hz
        · exact hxm
        · exact hmax z hz
      · refine ⟨x, by simp, ?_⟩
        intro z hz
        rcases List.mem_cons.mp hz with rfl | hz
        · exact le_refl _
        · exact (hmax z hz).trans (le_of_not_le hxm)

theorem swap_cost (w1 w2 l1 l2 : Nat) (rest : List (Nat × Nat)) (hw : w1 ≤ w2)
    (hl : l2 ≤ l1) :
    plCost ((w1, l1) :: (w2, l2) :: rest) ≤ plCost ((w1, l2) :: (w2, l1) :: rest) := by
  obtain ⟨d, rfl⟩ := Nat.exists_eq_add_of_le hw
  obtain ⟨e, rfl⟩ := Nat.exists_eq_add_of_le hl
  simp only [plCost_cons]
  ring_nf
  nlinarith [Nat.zero_le (d * e)]

theorem toMax (rest : List (Nat × Nat)) (w l : Nat) (hw : ∀ x ∈ rest, w ≤ x.1) :
    ∃ L rest', (∀ x ∈ rest', x.2 ≤ L) ∧ l ≤ L ∧
      (((w, L) :: rest').map Prod.snd).Perm (((w, l) :: rest).map Prod.snd) ∧
      (rest'.map Prod.fst).Perm (rest.map Prod.fst) ∧
      plCost ((w, L) :: rest') ≤ plCost ((w, l) :: rest) := by
  by_cases hall : ∀ x ∈ rest, x.2 ≤ l
  · exact ⟨l, rest, hall, le_refl l, List.Perm.refl _, List.Perm.refl _, le_refl _⟩
  · push_neg at hall
    obtain ⟨x0, hx0, hlx0⟩ := hall
    have hne : rest.map Prod.snd ≠ [] := by
      intro hmap
      rw [List.map_eq_nil_iff] at hmap
      rw [hmap] at hx0
      simp at hx0
    obtain ⟨M, hM, hMmax⟩ := max_attained (rest.map Prod.snd) hne
    have hlM : l < M := lt_of_lt_of_le hlx0 (hMmax x0.2 (List.mem_map.mpr ⟨x0, hx0, rfl⟩))
    obtain ⟨u, rest0, hperm⟩ := extract_snd rest M hM
    have huw : w ≤ u := hw (u, M) (hperm.symm.subset (by simp))
    refine ⟨M, (u, l) :: rest0, ?_, le_of_lt hlM, ?_, ?_, ?_⟩
    · intro x hx
      rcases List.mem_cons.mp hx with rfl | hx
      · exact le_of_lt hlM
      · refine hMmax x.2 ((hperm.map Prod.snd).symm.subset ?_)
        simp only [List.map_cons, List.mem_cons]
        exact Or.inr (List.mem_map.mpr ⟨x, hx, rfl⟩)
    · simp only [List.map_cons]
      refine (List.Perm.swap l M _).trans ?_
      exact (((hperm.map Prod.snd).symm).cons l)
    · simp only [List.map_cons]
      exact (hperm.map Prod.fst).symm
    · have h1 : plCost ((w, M) :: (u, l) :: rest0) ≤ plCost ((w, l) :: (u, M) :: rest0) :=
        swap_cost w u M l rest0 huw (le_of_lt hlM)
      have h2 : plCost ((w, l) :: (u, M) :: rest0) = plCost ((w, l) :: rest) :=
        plCost_perm _ _ ((hperm.symm).cons (w, l))
      omega

/-! ## The merge loop is optimal against any Kraft-feasible length vector -/

theorem wcost_min_aux : ∀ (μ : Nat) (pl : List (Nat × Nat)) (W : List Nat),
    pl.length + (pl.map Prod.snd).sum ≤ μ →
    W.Pairwise (fun x y => y ≤ x) →
    (pl.map Prod.fst).Perm W →
    ksum (pl.map Prod.snd) ≤ 1 →
    wcost W ≤ plCost pl := by
  intro μ
  induction μ with
  | zero =>
    intro pl W hμ _ hp _
    have hpl : pl = [] := List.length_eq_zero.mp (by omega)
    subst hpl
    have hW : W = [] := hp.symm.eq_nil
    subst hW
    rw [wcost_small [] (by simp)]
    exact Nat.zero_le _
  | succ μ ih =>
    intro pl W hμ hs hp hk
    by_cases hW1 : W.length ≤ 1
    · rw [wcost_small W hW1]
      exact Nat.zero_le _
    obtain ⟨ys, a, b, rfl⟩ := exists_snoc2 W (by omega)
    have hs' : List.Pairwise (fun x y => y ≤ x) (ys ++ [a, b]) := hs
    obtain ⟨hys, hab, hcross⟩ := List.pairwise_append.mp hs'
    have hba : b ≤ a := (List.pairwise_cons.mp hab).1 b (List.mem_cons_self b [])
    have hbmin : ∀ x ∈ ys ++ [a, b], b ≤ x := by
      intro x hx
      rcases List.mem_append.mp hx with hx | hx
      · exact hcross x hx b (by simp)
      · rcases List.mem_cons.mp hx with rfl | hx
        · exact hba
        · simp at hx
          omega
    have hamin : ∀ x ∈ ys, a ≤ x := fun x hx => hcross x hx a (by simp)
    have hbmem : b ∈ pl.map Prod.fst := hp.symm.subset (by simp)
    obtain ⟨lb, plB, hpermB⟩ := extract_fst pl b hbmem
    have hwB : (plB.map Prod.fst).Perm (ys ++ [a]) := by
      have h1 : (pl.map Prod.fst).Perm (b :: plB.map Prod.fst) := by
        have := hpermB.map Prod.fst
        simpa using this
      have h2 : (b :: plB.map Prod.fst).Perm (ys ++ [a, b]) := h1.symm.trans hp
      have h3 : (ys ++ [a, b]).Perm (b :: (ys ++ [a])) := by
        rw [show ys ++ [a, b] = (ys ++ [a]) ++ [b] by simp]
        exact List.perm_append_comm
      exact (h2.trans h3).cons_inv
    have hwBel : ∀ x ∈ plB, b ≤ x.1 := by
      intro x hx
      have hx1 : x.1 ∈ ys ++ [a] := hwB.subset (List.mem_map.mpr ⟨x, hx, rfl⟩)
      rcases List.mem_append.mp hx1 with h | h
      · exact hbmin x.1 (List.mem_append.mpr (Or.inl h))
      · simp at h
        omega
    obtain ⟨L1, plB', hB'max, hlbL1, hB'len, hB'w, hB'cost⟩ := toMax plB b lb hwBel
    have hamem : a ∈ plB'.map Prod.fst := by
      refine hB'w.mem_iff.mpr (hwB.mem_iff.mpr ?_)
      simp
    obtain ⟨la, plC, hpermC⟩ := extract_fst plB' a hamem
    have hwC : (plC.map Prod.fst).Perm ys := by
      have h1 : (plB'.map Prod.fst).Perm (a :: plC.map Prod.fst) := by
        have := hpermC.map Prod.fst
        simpa using this
      have h2 : (a :: plC.map Prod.fst).Perm (ys ++ [a]) := h1.symm.trans (hB'w.trans hwB)
      have h3 : (ys ++ [a]).Perm (a :: ys) := List.perm_append_comm
      exact (h2.trans h3).cons_inv
    have hwCel : ∀ x ∈ plC, a ≤ x.1 := fun x hx =>
      hamin x.1 (hwC.subset (List.mem_map.mpr ⟨x, hx, rfl⟩))
    have hlaL1 : la ≤ L1 := hB'max (a, la) (hpermC.symm.subset (by simp))
    have hCL1 : ∀ x ∈ plC, x.2 ≤ L1 := fun x hx =>
      hB'max x (hpermC.symm.subset (by simp [hx]))
    obtain ⟨L2, plC', hC'max, hlaL2, hC'len, hC'w, hC'cost⟩ := toMax plC a la hwCel
    have hL2L1 : L2 ≤ L1 := by
      have hmem : L2 ∈ ((a, L2) :: plC').map Prod.snd := by simp
      have hmem2 : L2 ∈ ((a, la) :: plC).map Prod.snd := hC'len.subset hmem
      rw [List.map_cons] at hmem2
      rcases List.mem_cons.mp hmem2 with rfl | hmem2
      · exact hlaL1
      · rcases List.mem_map.mp hmem2 with ⟨e, he, rfl⟩
        exact hCL1 e he
    have hlenQ : (((b, L1) :: (a, L2) :: plC').map Prod.snd).Perm (pl.map Prod.snd) := by
      have s1 : (((a, L2) :: plC').map Prod.snd).Perm (((a, la) :: plC).map Prod.snd) :=
        hC'len
      have s2 : (((a, la) :: plC).map Prod.snd).Perm (plB'.map Prod.snd) :=
        (hpermC.map Prod.snd).symm
      have s3 : (((b, L1) :: plB').map Prod.snd).Perm (((b, lb) :: plB).map Prod.snd) :=
        hB'len
      have s4 : (((b, lb) :: plB).map Prod.snd).Perm (pl.map Prod.snd) :=
        (hpermB.map Prod.snd).symm
      have s5 : (((b, L1) :: (a, L2) :: plC').map Prod.snd).Perm
          (((b, L1) :: plB').map Prod.snd) := by
        simp only [List.map_cons]
        exact (s1.trans s2).cons L1
      exact (s5.trans s3).trans s4
    have hkQ : ksum (((b, L1) :: (a, L2) :: plC').map Prod.snd) ≤ 1 := by
      rw [ksum_perm _ _ hlenQ]
      exact hk
    have hwQ : (((b, L1) :: (a, L2) :: plC').map Prod.fst).Perm (ys ++ [a, b]) := by
      have t1 : (plC'.map Prod.fst).Perm ys := hC'w.trans hwC
      have u2 : (ys ++ [a]).Perm (a :: ys) := List.perm_append_comm
      have u1 : (ys ++ [a, b]).Perm (b :: (ys ++ [a])) := by
        rw [show ys ++ [a, b] = (ys ++ [a]) ++ [b] by simp]
        exact List.perm_append_comm
      have t3 : (b :: a :: ys).Perm (ys ++ [a, b]) :=
        ((u2.symm.cons b).trans u1.symm)
      simp only [List.map_cons]
      exact ((t1.cons a).cons b).trans t3
    have hcostQ : plCost ((b, L1) :: (a, L2) :: plC') ≤ plCost pl := by
      have c2 : plCost ((a, L2) :: plC') ≤ plCost ((a, la) :: plC) := hC'cost
      have c3 : plCost ((a, la) :: plC) = plCost plB' := (plCost_perm _ _ hpermC).symm
      have c4 : plCost ((b, L1) :: plB') ≤ plCost ((b, lb) :: plB) := hB'cost
      have c5 : plCost ((b, lb) :: plB) = plCost pl := (plCost_perm _ _ hpermB).symm
      simp only [plCost_cons] at c2 c3 c4 c5 ⊢
      omega
    have hlen_eq : pl.length = plC'.length + 2 := by
      have := hlenQ.length_eq
      simp only [List.length_map, List.length_cons] at this
      omega
    have hsum_eq : (pl.map Prod.snd).sum = L1 + (L2 + (plC'.map Prod.snd).sum) := by
      have := hlenQ.sum_eq
      simp only [List.map_cons, List.sum_cons] at this
      omega
    rcases lt_or_eq_of_le hL2L1 with hlt | heq
    · -- promote the unique maximal length and recurse on the same weights
      have hL1pos : 1 ≤ L1 := by omega
      have hbound : ∀ x ∈ L2 :: plC'.map Prod.snd, x ≤ L1 - 1 := by
        intro x hx
        rcases List.mem_cons.mp hx with rfl | hx
        · omega
        · rcases List.mem_map.mp hx with ⟨e, he, rfl⟩
          have := hC'max e he
          omega
      have hkP : ksum ((L1 - 1) :: L2 :: plC'.map Prod.snd) ≤ 1 := by
        refine ksum_promote L1 (L2 :: plC'.map Prod.snd) hL1pos hbound ?_
        simpa using hkQ
      have hμP : ((b, L1 - 1) :: (a, L2) :: plC').length +
          (((b, L1 - 1) :: (a, L2) :: plC').map Prod.snd).sum ≤ μ := by
        simp only [List.length_cons, List.map_cons, List.sum_cons]
        omega
      have hres := ih ((b, L1 - 1) :: (a, L2) :: plC') (ys ++ [a, b]) hμP hs
        (by simpa using hwQ) (by simpa using hkP)
      have hPQ : plCost ((b, L1 - 1) :: (a, L2) :: plC') ≤
          plCost ((b, L1) :: (a, L2) :: plC') := by
        simp only [plCost_cons]
        have : b * (L1 - 1) ≤ b * L1 := Nat.mul_le_mul_left b (by omega)
        omega
      omega
    · -- the two smallest weights sit at the common maximal length: merge them
      subst heq
      have hL1 : 1 ≤ L2 := by
        by_contra h0
        have hz : L2 = 0 := by omega
        rw [hz] at hkQ
        exact ksum_two_zero (plC'.map Prod.snd) (by simpa using hkQ)
      have hkQ' : ksum (((a + b, L2 - 1) :: plC').map Prod.snd) ≤ 1 := by
        simp only [List.map_cons]
        rw [ksum_merge L2 (plC'.map Prod.snd) hL1]
        simpa using hkQ
      have hwQ' : (((a + b, L2 - 1) :: plC').map Prod.fst).Perm (reinsertW (a + b) ys) := by
        have t1 : (plC'.map Prod.fst).Perm ys := hC'w.trans hwC
        simp only [List.map_cons]
        exact (t1.cons (a + b)).trans (reinsertW_perm (a + b) ys).symm
      have hsortW' : (reinsertW (a + b) ys).Pairwise (fun x y => y ≤ x) :=
        reinsertW_sorted _ _ hys
      have hμQ' : ((a + b, L2 - 1) :: plC').length +
          (((a + b, L2 - 1) :: plC').map Prod.snd).sum ≤ μ := by
        simp only [List.length_cons, List.map_cons, List.sum_cons]
        omega
      have hres := ih ((a + b, L2 - 1) :: plC') (reinsertW (a + b) ys) hμQ'
        hsortW' hwQ' hkQ'
      rw [wcost_snoc]
      have hQQ' : plCost ((b, L2) :: (a, L2) :: plC') =
          plCost ((a + b, L2 - 1) :: plC') + a + b := by
        simp only [plCost_cons]
        have e2 : (a + b) * L2 = (a + b) * (L2 - 1) + (a + b) := by
          rw [show L2 = (L2 - 1) + 1 by omega, Nat.mul_succ]
          simp
        have e1 : b * L2 + a * L2 = (a + b) * L2 := by ring
        omega
      omega

/-! ## Char-weight pairs through the merge loop -/

/-- The (char, weight) pairs at the leaves of a tree. -/
def cw (t : treenode) : List (Nat × Nat) := (paths t).map (fun e => e.1)

/-- The (char, weight) pairs over a working collection. -/
def cwF (tops : List treenode) : List (Nat × Nat) := (tops.map cw).flatten

theorem cw_node (p : Nat) (lc rc : Bool) (l r : treenode) :
    cw (.node p lc rc l r) = cw l ++ cw r := by
  show ((paths l).map (fun e => (e.1, lc :: e.2)) ++
      (paths r).map (fun e => (e.1, rc :: e.2))).map (fun e => e.1) = cw l ++ cw r
  rw [List.map_append, List.map_map, List.map_map]
  rfl

theorem cw_mkNode (l r : treenode) : cw (mkNode l r) = cw l ++ cw r := by
  unfold mkNode
  split <;> exact cw_node _ _ _ _ _

theorem cwF_hstep (tops : List treenode) (h : 2 ≤ tops.length) :
    (cwF (hstep tops)).Perm (cwF tops) := by
  obtain ⟨ys, a, b, rfl⟩ := exists_snoc2 tops h
  rw [hstep_snoc]
  unfold cwF
  refine (((reinsert_perm (mkNode a b) ys).map cw).flatten).trans ?_
  simp only [List.map_cons, List.map_append, List.flatten_cons, List.flatten_append,
    cw_mkNode, List.flatten_nil, List.append_nil]
  refine (List.perm_append_comm).trans ?_
  simp [List.append_assoc]

theorem huffLoop_cw (tops : List treenode) (root : treenode)
    (h : huffLoop tops = [root]) : (cw root).Perm (cwF tops) := by
  have hinv := huffLoop_inv (fun l => (cwF l).Perm (cwF tops))
    (fun l hl hc => (cwF_hstep l hl).trans hc) tops (List.Perm.refl _)
  rw [h] at hinv
  have : cwF [root] = cw root := by simp [cwF]
  rw [← this]
  exact hinv

theorem cwF_initTops (input : List Nat) :
    (cwF (initTops input)).Perm
      ((mapKeys input).map (fun c => (c, freqOf input c))) := by
  unfold cwF initTops
  rw [List.map_map]
  have e : (cw ∘ fun n : pnode => treenode.leaf n.ch n.p) =
      fun n : pnode => [(n.ch, n.p)] := by
    funext n
    rfl
  rw [e, flatten_singletons]
  refine ((ptable_perm input).map (fun n : pnode => (n.ch, n.p))).trans ?_
  rw [List.map_map]
  exact List.Perm.refl _

theorem paths_weight (input : List Nat) (root : treenode)
    (hcw : (cw root).Perm ((mapKeys input).map (fun c => (c, freqOf input c)))) :
    ∀ e ∈ paths root, e.1.2 = freqOf input e.1.1 := by
  intro e he
  have h1 : e.1 ∈ (mapKeys input).map (fun c => (c, freqOf input c)) :=
    hcw.subset (List.mem_map.mpr ⟨e, he, rfl⟩)
  rcases List.mem_map.mp h1 with ⟨c, _, hc⟩
  rw [← hc]

/-! ## Tree cost as a sum over leaf paths -/

theorem sum_map_add {α : Type} (l : List α) (f g : α → Nat) :
    (l.map (fun x => f x + g x)).sum = (l.map f).sum + (l.map g).sum := by
  induction l with
  | nil => rfl
  | cons x l ih =>
    simp only [List.map_cons, List.sum_cons, ih]
    omega

theorem leafW_paths (t : treenode) :
    leafW t = ((paths t).map (fun e => e.1.2)).sum := by
  induction t with
  | leaf c p => simp [leafW, paths]
  | node p lc rc l r ihl ihr =>
    rw [paths_node]
    show leafW l + leafW r = _
    rw [List.map_append, List.sum_append, List.map_map, List.map_map]
    rw [ihl, ihr]
    rfl

theorem tcost_paths (t : treenode) :
    tcost t = ((paths t).map (fun e => e.1.2 * e.2.length)).sum := by
  induction t with
  | leaf c p => simp [tcost, paths]
  | node p lc rc l r ihl ihr =>
    rw [paths_node]
    show tcost l + tcost r + leafW l + leafW r = _
    rw [List.map_append, List.sum_append, List.map_map, List.map_map]
    have el : ((paths l).map ((fun e : (Nat × Nat) × List Bool => e.1.2 * e.2.length) ∘
        (fun e => (e.1, lc :: e.2)))).sum =
        ((paths l).map (fun e => e.1.2 * e.2.length)).sum +
          ((paths l).map (fun e => e.1.2)).sum := by
      rw [← sum_map_add]
      apply congrArg
      apply List.map_congr_left
      intro e _
      show e.1.2 * (lc :: e.2).length = e.1.2 * e.2.length + e.1.2
      rw [List.length_cons, Nat.mul_succ]
    have er : ((paths r).map ((fun e : (Nat × Nat) × List Bool => e.1.2 * e.2.length) ∘
        (fun e => (e.1, rc :: e.2)))).sum =
        ((paths r).map (fun e => e.1.2 * e.2.length)).sum +
          ((paths r).map (fun e => e.1.2)).sum := by
      rw [← sum_map_add]
      apply congrArg
      apply List.map_congr_left
      intro e _
      show e.1.2 * (rc :: e.2).length = e.1.2 * e.2.length + e.1.2
      rw [List.length_cons, Nat.mul_succ]
    rw [el, er, ← ihl, ← ihr, ← leafW_paths, ← leafW_paths]
    omega

/-! ## Cost of the produced table and of an arbitrary code -/

/-- Encoded size under the produced table: occurrences times codeword length,
summed over the table entries. -/
def tableCost (input : List Nat) (t : List (Nat × List Bool)) : Nat :=
  (t.map (fun e => freqOf input e.1 * e.2.length)).sum

/-- Encoded size under an arbitrary assignment of codewords to the distinct
input bytes. -/
def codeCost (input : List Nat) (f : Nat → List Bool) : Nat :=
  ((mapKeys input).map (fun c => freqOf input c * (f c).length)).sum

theorem tableCost_eq_tcost (input : List Nat) (t : List (Nat × List Bool))
    (root : treenode)
    (hperm : t.Perm ((paths root).map (fun e => (e.1.1, e.2))))
    (hcw : (cw root).Perm ((mapKeys input).map (fun c => (c, freqOf input c)))) :
    tableCost input t = tcost root := by
  unfold tableCost
  rw [(hperm.map (fun e => freqOf input e.1 * e.2.length)).sum_eq]
  rw [List.map_map]
  rw [tcost_paths]
  apply congrArg
  apply List.map_congr_left
  intro e he
  show freqOf input e.1.1 * e.2.length = e.1.2 * e.2.length
  rw [paths_weight input root hcw e he]

/-- Claim C3: for every input on which a table is produced, the encoded size
under the produced table — the sum over symbols of occurrence count times
codeword length — is minimal among all binary prefix codes on the distinct
input bytes (codes under which no distinct-symbol codeword is an initial
segment of another). -/
theorem claim_C3_optimal (input : List Nat) (t : List (Nat × List Bool))
    (h : BuildCode input = some t) (f : Nat → List Bool)
    (hf : ∀ s1 ∈ mapKeys input, ∀ s2 ∈ mapKeys input, s1 ≠ s2 → ¬ pfx (f s1) (f s2)) :
    tableCost input t ≤ codeCost input f := by
  obtain ⟨root, hL, hwf, hchars, hperm⟩ := BuildCode_some input t h
  have hcw : (cw root).Perm ((mapKeys input).map (fun c => (c, freqOf input c))) :=
    (huffLoop_cw _ _ hL).trans (cwF_initTops input)
  rw [tableCost_eq_tcost input t root hperm hcw]
  have hcons : ∀ x ∈ initTops input, wconsistent x := by
    intro x hx
    rcases List.mem_map.mp hx with ⟨n, _, rfl⟩
    trivial
  have hwcost : tcost root = wcost ((initTops input).map treenode.p) := by
    have h0 := loop_cost (initTops input).length (initTops input) root (le_refl _) hL hcons
    have hz : tcostSum (initTops input) = 0 := by
      unfold tcostSum initTops
      rw [List.map_map]
      have e : (tcost ∘ fun n : pnode => treenode.leaf n.ch n.p) = fun _ : pnode => 0 := by
        funext n
        rfl
      rw [e]
      simp
    rw [h0, hz]
    omega
  rw [hwcost]
  have hW : ((initTops input).map treenode.p) = (ptable input).map pnode.p := by
    unfold initTops
    rw [List.map_map]
    rfl
  refine le_trans (wcost_min_aux
    (((mapKeys input).map (fun c => (freqOf input c, (f c).length))).length +
      ((((mapKeys input).map (fun c => (freqOf input c, (f c).length)))).map Prod.snd).sum)
    ((mapKeys input).map (fun c => (freqOf input c, (f c).length)))
    ((initTops input).map treenode.p)
    (le_refl _) ?_ ?_ ?_) ?_
  · rw [hW, List.pairwise_map]
    exact sortDesc_sorted _
  · rw [hW, List.map_map]
    have e1 : (Prod.fst ∘ fun c => (freqOf input c, (f c).length)) =
        fun c => freqOf input c := rfl
    rw [e1]
    have h2 := (ptable_perm input).map pnode.p
    rw [List.map_map] at h2
    have e2 : (pnode.p ∘ fun c => ({ ch := c, p := freqOf input c } : pnode)) =
        fun c => freqOf input c := rfl
    rw [e2] at h2
    exact h2.symm
  · rw [List.map_map]
    have e3 : (Prod.snd ∘ fun c => (freqOf input c, (f c).length)) =
        fun c => (f c).length := rfl
    rw [e3]
    have e4 : (mapKeys input).map (fun c => (f c).length) =
        ((mapKeys input).map f).map List.length := by
      rw [List.map_map]
      rfl
    rw [e4]
    refine kraft_bound ((((mapKeys input).map f).map List.length).sum) _ ?_ ?_
    · intro w hw
      exact List.single_le_sum (fun x _ => Nat.zero_le x) w.length
        (List.mem_map.mpr ⟨w, hw, rfl⟩)
    · rw [List.pairwise_map]
      refine List.Pairwise.imp_of_mem ?_ (mapKeys_nodup input)
      intro a b ha hb hne
      exact ⟨hf a ha b hb hne, hf b hb a ha hne.symm⟩
  · unfold plCost codeCost
    rw [List.map_map]
    rfl

/-- Witness for claim C3: the table built from "aab" beats (here: ties) the
one-bit-per-symbol code on the two distinct bytes. -/
theorem claim_C3_witness :
    tableCost [97, 97, 98] [(97, [true]), (98, [false])] ≤
      codeCost [97, 97, 98] (fun c => if c = 97 then [false] else [true]) :=
  claim_C3_optimal [97, 97, 98] [(97, [true]), (98, [false])] (by decide)
    (fun c => if c = 97 then [false] else [true]) (by decide)

example : BuildCode [97, 97, 97, 98, 99] =
    some [(97, [true]), (98, [false, true]), (99, [false, false])] := by decide

example : Encode [(97, [true]), (98, [false, true]), (99, [false, false])]
    [98, 99] = [false, true, false, false] := by decide

example : Decode [(97, [true]), (98, [false, true]), (99, [false, false])]
    [false, true, false] = [98] := by decide
